import Mathlib

/-!
# Verification of the reply-delivery subsystem of `discord-summarize`

Shallow embedding of `src/utils/discordUtils.ts`:
* the Chunker (`splitTextIntoChunks`),
* the Presentation Batcher (`estimateEmbedSize`, `groupEmbedsIntoBatches`),
* embed rebuilding (`createMultipleEmbeds`),
* the Delivery Dispatcher (`safeReply`), modelled as a state-passing
  computation over an explicit trace of platform send calls, with an
  environment deciding which platform call throws.

JavaScript strings are modelled as `List Char`; JavaScript's
`String.prototype.lastIndexOf(c, from)`, `substring`, and `trim` are
modelled explicitly below.
-/

namespace DiscordSummarize

/-- Discord has a character limit of 4000 per embed description
(`DISCORD_EMBED_DESCRIPTION_LIMIT` in the source). -/
def DISCORD_EMBED_DESCRIPTION_LIMIT : Nat := 4000

/-- Discord has a total message size limit of 6000 characters
(`DISCORD_TOTAL_MESSAGE_LIMIT` in the source). -/
def DISCORD_TOTAL_MESSAGE_LIMIT : Nat := 6000

/-- The whitespace characters removed by JavaScript `String.prototype.trim`
(ASCII fragment; the source texts only involve space, newline, tab, CR). -/
def isJSWhitespace (c : Char) : Bool :=
  c = ' ' || c = '\n' || c = '\t' || c = '\r' || c = '\x0b' || c = '\x0c'

/-- JavaScript `s.trim()`: remove leading and trailing whitespace. -/
def jsTrim (l : List Char) : List Char :=
  ((l.dropWhile isJSWhitespace).reverse.dropWhile isJSWhitespace).reverse

/-- JavaScript `s.lastIndexOf(c, fromIdx)` for a one-character search string:
the largest index `i ≤ fromIdx` with `l[i] = c`, as `some i`; `none` models
the JavaScript result `-1`. -/
def lastIndexOf (l : List Char) (c : Char) (fromIdx : Nat) : Option Nat :=
  (List.range (min (fromIdx + 1) l.length)).foldl
    (fun acc i => if l.get? i = some c then some i else acc) none

/-- The break-point computation inside the loop of `splitTextIntoChunks`
(source lines 40–49): last newline at index ≤ chunkSize, unless absent or
before `chunkSize / 2` (the JavaScript comparison `breakPoint < chunkSize/2`
on integers is `2 * breakPoint < chunkSize`), in which case the last space
at index ≤ chunkSize, else a forced break exactly at `chunkSize`. -/
def findBreakPoint (remainingText : List Char) (chunkSize : Nat) : Nat :=
  match lastIndexOf remainingText '\n' chunkSize with
  | some i =>
      if 2 * i < chunkSize then
        match lastIndexOf remainingText ' ' chunkSize with
        | some j => j
        | none => chunkSize
      else i
  | none =>
      match lastIndexOf remainingText ' ' chunkSize with
      | some j => j
      | none => chunkSize

/-- The `while` loop of `splitTextIntoChunks` (source lines 32–54).
`fuel` bounds the number of iterations; for a positive `chunkSize` each
iteration strictly shortens `remainingText`, so `fuel := text.length`
suffices (for `fuel = 0` the remaining text is necessarily `[]` and the
loop would exit anyway, see `splitLoop_reconstruct`). -/
def splitLoop (chunkSize : Nat) : Nat → List Char → List (List Char) → List (List Char)
  | 0, _, chunks => chunks
  | Nat.succ fuel, remainingText, chunks =>
      if remainingText.length = 0 then chunks
      else if remainingText.length ≤ chunkSize then chunks ++ [remainingText]
      else
        let breakPoint := findBreakPoint remainingText chunkSize
        splitLoop chunkSize fuel (jsTrim (remainingText.drop breakPoint))
          (chunks ++ [remainingText.take breakPoint])

/-- `splitTextIntoChunks(text, chunkSize)` (source lines 21–57):
split a long text into chunks that fit within Discord's character limit. -/
def splitTextIntoChunks (text : List Char) (chunkSize : Nat) : List (List Char) :=
  if text.length ≤ chunkSize then [text]
  else splitLoop chunkSize text.length text []

/-! ## Basic lemmas about the JavaScript string primitives -/

theorem foldl_lastIndexOf_sound (l : List Char) (c : Char) :
    ∀ (xs : List Nat) (acc : Option Nat) (i : Nat),
      List.foldl (fun acc j => if l.get? j = some c then some j else acc) acc xs = some i →
      acc = some i ∨ (i ∈ xs ∧ l.get? i = some c) := by
  intro xs
  induction xs with
  | nil => intro acc i h; exact Or.inl h
  | cons x xs ih =>
      intro acc i h
      simp only [List.foldl_cons] at h
      rcases ih _ _ h with h' | h'
      · by_cases hx : l.get? x = some c
        · simp only [hx, if_pos rfl] at h'
          · rcases h' with h'
            have : x = i := by simpa using h'
            subst this
            exact Or.inr ⟨List.mem_cons_self _ _, hx⟩
        · simp only [if_neg hx] at h'
          exact Or.inl h'
      · exact Or.inr ⟨List.mem_cons_of_mem _ h'.1, h'.2⟩

theorem lastIndexOf_sound {l : List Char} {c : Char} {fromIdx i : Nat}
    (h : lastIndexOf l c fromIdx = some i) :
    l.get? i = some c ∧ i ≤ fromIdx := by
  unfold lastIndexOf at h
  rcases foldl_lastIndexOf_sound l c _ none i h with h' | h'
  · exact absurd h' (by simp)
  · refine ⟨h'.2, ?_⟩
    have := List.mem_range.mp h'.1
    omega

theorem findBreakPoint_le (remainingText : List Char) (chunkSize : Nat) :
    findBreakPoint remainingText chunkSize ≤ chunkSize := by
  unfold findBreakPoint
  rcases h1 : lastIndexOf remainingText '\n' chunkSize with _ | i
  · rcases h2 : lastIndexOf remainingText ' ' chunkSize with _ | j
    · simp
    · simpa using (lastIndexOf_sound h2).2
  · by_cases hhalf : 2 * i < chunkSize
    · simp only [if_pos hhalf]
      rcases h2 : lastIndexOf remainingText ' ' chunkSize with _ | j
      · simp
      · simpa using (lastIndexOf_sound h2).2
    · simp only [if_neg hhalf]
      exact (lastIndexOf_sound h1).2

theorem findBreakPoint_eq_zero {remainingText : List Char} {chunkSize : Nat}
    (hcs : 0 < chunkSize) (h : findBreakPoint remainingText chunkSize = 0) :
    remainingText.get? 0 = some ' ' := by
  unfold findBreakPoint at h
  rcases h1 : lastIndexOf remainingText '\n' chunkSize with _ | i <;> simp only [h1] at h
  · rcases h2 : lastIndexOf remainingText ' ' chunkSize with _ | j <;> simp only [h2] at h
    · omega
    · subst h; exact (lastIndexOf_sound h2).1
  · by_cases hhalf : 2 * i < chunkSize
    · simp only [if_pos hhalf] at h
      rcases h2 : lastIndexOf remainingText ' ' chunkSize with _ | j <;> simp only [h2] at h
      · omega
      · subst h; exact (lastIndexOf_sound h2).1
    · simp only [if_neg hhalf] at h
      subst h
      omega

theorem length_dropWhile_le' (p : Char → Bool) (l : List Char) :
    (l.dropWhile p).length ≤ l.length := by
  induction l with
  | nil => simp
  | cons x xs ih =>
      by_cases hx : p x
      · simp only [List.dropWhile_cons, hx, if_pos]
        exact Nat.le_trans ih (by simp)
      · simp [List.dropWhile_cons, hx]

theorem jsTrim_length_le (l : List Char) : (jsTrim l).length ≤ l.length := by
  unfold jsTrim
  calc ((l.dropWhile isJSWhitespace).reverse.dropWhile isJSWhitespace).reverse.length
      = ((l.dropWhile isJSWhitespace).reverse.dropWhile isJSWhitespace).length := by simp
    _ ≤ (l.dropWhile isJSWhitespace).reverse.length := length_dropWhile_le' _ _
    _ = (l.dropWhile isJSWhitespace).length := by simp
    _ ≤ l.length := length_dropWhile_le' _ _

theorem jsTrim_cons_ws {c : Char} (hc : isJSWhitespace c = true) (t : List Char) :
    (jsTrim (c :: t)).length ≤ t.length := by
  unfold jsTrim
  rw [List.dropWhile_cons, if_pos hc]
  calc ((t.dropWhile isJSWhitespace).reverse.dropWhile isJSWhitespace).reverse.length
      = ((t.dropWhile isJSWhitespace).reverse.dropWhile isJSWhitespace).length := by simp
    _ ≤ (t.dropWhile isJSWhitespace).reverse.length := length_dropWhile_le' _ _
    _ = (t.dropWhile isJSWhitespace).length := by simp
    _ ≤ t.length := length_dropWhile_le' _ _

theorem dropWhile_head_not {p : Char → Bool} :
    ∀ {l : List Char} {c : Char} {t : List Char}, l.dropWhile p = c :: t → p c = false := by
  intro l
  induction l with
  | nil => intro c t h; simp at h
  | cons x xs ih =>
      intro c t h
      by_cases hx : p x
      · rw [List.dropWhile_cons, if_pos hx] at h
        exact ih h
      · rw [List.dropWhile_cons, if_neg hx] at h
        cases h
        simpa using hx

/-- `jsTrim l` never begins with a whitespace character. -/
theorem jsTrim_head_not_ws {l : List Char} {c : Char} {t : List Char}
    (h : jsTrim l = c :: t) : isJSWhitespace c = false := by
  unfold jsTrim at h
  set l₁ := l.dropWhile isJSWhitespace with hl₁
  have hsuffix : l₁.reverse.dropWhile isJSWhitespace <:+ l₁.reverse :=
    List.dropWhile_suffix _
  have hprefix : (l₁.reverse.dropWhile isJSWhitespace).reverse <+: l₁ := by
    have := hsuffix.reverse
    simpa using this
  rw [h] at hprefix
  rcases hprefix with ⟨t', ht'⟩
  have : l₁ = c :: (t ++ t') := by rw [← ht']; simp
  exact dropWhile_head_not (hl₁.symm.trans this)

/-! ## Structural lemmas about `splitLoop` -/

theorem splitLoop_append (chunkSize : Nat) :
    ∀ (fuel : Nat) (rem : List Char) (chunks : List (List Char)),
      splitLoop chunkSize fuel rem chunks = chunks ++ splitLoop chunkSize fuel rem [] := by
  intro fuel
  induction fuel with
  | zero => intro rem chunks; simp [splitLoop]
  | succ fuel ih =>
      intro rem chunks
      by_cases h0 : rem.length = 0
      · simp [splitLoop, h0]
      · by_cases h1 : rem.length ≤ chunkSize
        · simp [splitLoop, h0, h1]
        · simp only [splitLoop, if_neg h0, if_neg h1]
          rw [ih _ (chunks ++ [rem.take (findBreakPoint rem chunkSize)]),
            ih _ ([] ++ [rem.take (findBreakPoint rem chunkSize)])]
          simp

/-- One unfolding of the loop in the interesting (splitting) case. -/
theorem splitLoop_cons {chunkSize : Nat} {fuel : Nat} {rem : List Char}
    (h1 : ¬ rem.length ≤ chunkSize) :
    splitLoop chunkSize (Nat.succ fuel) rem [] =
      rem.take (findBreakPoint rem chunkSize) ::
        splitLoop chunkSize fuel (jsTrim (rem.drop (findBreakPoint rem chunkSize))) [] := by
  have h0 : ¬ rem.length = 0 := by omega
  simp only [splitLoop, if_neg h0, if_neg h1]
  rw [splitLoop_append]
  simp

/-- For a positive chunk size, one loop iteration strictly shortens the
remaining text, so the fuel `text.length` is sufficient. -/
theorem splitLoop_decrease {rem : List Char} {chunkSize : Nat}
    (hcs : 0 < chunkSize) (h : chunkSize < rem.length) :
    (jsTrim (rem.drop (findBreakPoint rem chunkSize))).length < rem.length := by
  set bp := findBreakPoint rem chunkSize with hbp
  by_cases hz : bp = 0
  · have hsp : rem.get? 0 = some ' ' := findBreakPoint_eq_zero hcs hz
    rcases rem with _ | ⟨c, t⟩
    · simp at h
    · have : c = ' ' := by simpa using hsp
      subst this
      rw [hz]
      simp only [List.drop_zero]
      have := jsTrim_cons_ws (c := ' ') (by decide) t
      simp only [List.length_cons]
      omega
  · have h1 : (jsTrim (rem.drop bp)).length ≤ rem.length - bp := by
      have := jsTrim_length_le (rem.drop bp)
      simpa using this
    omega

/-! ## C4: small inputs pass through unchanged -/

/-- **C4.** For every text and positive limit with `text.length ≤ limit`,
the Chunker returns the single-element sequence `[text]` (in particular
`[""]` for the empty string). Source lines 25–27. -/
theorem splitTextIntoChunks_small (text : List Char) (limit : Nat)
    (hlim : 0 < limit) (hlen : text.length ≤ limit) :
    splitTextIntoChunks text limit = [text] := by
  unfold splitTextIntoChunks
  rw [if_pos hlen]

/-- Witness for C4 at `text = ""`, `limit = 4000`. -/
theorem splitTextIntoChunks_small_witness :
    0 < 4000 ∧ ([] : List Char).length ≤ 4000 ∧
      splitTextIntoChunks [] 4000 = [[]] :=
  ⟨by decide, by decide, splitTextIntoChunks_small [] 4000 (by decide) (by decide)⟩

/-! ## C6: every chunk fits within the limit -/

theorem splitLoop_length_le (chunkSize : Nat) :
    ∀ (fuel : Nat) (rem : List Char) (chunks : List (List Char)),
      (∀ x ∈ chunks, x.length ≤ chunkSize) →
      ∀ x ∈ splitLoop chunkSize fuel rem chunks, x.length ≤ chunkSize := by
  intro fuel
  induction fuel with
  | zero => intro rem chunks hch x hx; exact hch x hx
  | succ fuel ih =>
      intro rem chunks hch x hx
      by_cases h0 : rem.length = 0
      · rw [splitLoop, if_pos h0] at hx
        exact hch x hx
      · by_cases h1 : rem.length ≤ chunkSize
        · rw [splitLoop, if_neg h0, if_pos h1] at hx
          rcases List.mem_append.mp hx with h | h
          · exact hch x h
          · simp only [List.mem_singleton] at h
            subst h; exact h1
        · rw [splitLoop, if_neg h0, if_neg h1] at hx
          refine ih _ _ ?_ x hx
          intro y hy
          rcases List.mem_append.mp hy with h | h
          · exact hch y h
          · simp only [List.mem_singleton] at h
            subst h
            calc (rem.take (findBreakPoint rem chunkSize)).length
                ≤ findBreakPoint rem chunkSize := by simp
              _ ≤ chunkSize := findBreakPoint_le _ _

/-- **C6.** For every text and positive limit, every chunk returned by the
Chunker has length at most the limit, including chunks produced by forced
mid-token breaks. Source lines 32–56. -/
theorem splitTextIntoChunks_le_limit (text : List Char) (limit : Nat)
    (hlim : 0 < limit) :
    ∀ chunk ∈ splitTextIntoChunks text limit, chunk.length ≤ limit := by
  unfold splitTextIntoChunks
  by_cases h : text.length ≤ limit
  · rw [if_pos h]
    intro chunk hc
    simp only [List.mem_singleton] at hc
    subst hc; exact h
  · rw [if_neg h]
    exact splitLoop_length_le limit text.length text [] (by simp)

/-- Witness for C6 at a forced-break input. -/
theorem splitTextIntoChunks_le_limit_witness :
    0 < 2 ∧
      ∀ chunk ∈ splitTextIntoChunks ('a' :: 'b' :: 'c' :: 'd' :: 'e' :: []) 2,
        chunk.length ≤ 2 :=
  ⟨by decide, splitTextIntoChunks_le_limit ('a' :: 'b' :: 'c' :: 'd' :: 'e' :: []) 2 (by decide)⟩

/-! ## C5: empty chunks -/

/-- **C5 counterexample.** The claim "no element of the returned sequence is
the empty string, except in the single-chunk case where the input text itself
was the empty string" fails: for the non-empty input `" aa"` with limit 2 the
space at index 0 is selected as break point, so the Chunker returns
`["", "aa"]` — two chunks, the first empty. -/
theorem splitTextIntoChunks_empty_chunk_cex :
    splitTextIntoChunks (' ' :: 'a' :: 'a' :: []) 2 = ([] : List Char) :: ('a' :: 'a' :: []) :: [] ∧
      (' ' :: 'a' :: 'a' :: [] : List Char) ≠ [] := by
  constructor
  · rfl
  · intro h; cases h

theorem splitLoop_no_empty_chunk (chunkSize : Nat) (hcs : 0 < chunkSize) :
    ∀ (fuel : Nat) (rem : List Char),
      rem.head? ≠ some ' ' →
      ∀ x ∈ splitLoop chunkSize fuel rem [], x ≠ [] := by
  intro fuel
  induction fuel with
  | zero => intro rem hh x hx; simp [splitLoop] at hx
  | succ fuel ih =>
      intro rem hh x hx
      by_cases h0 : rem.length = 0
      · rw [splitLoop, if_pos h0] at hx
        simp at hx
      · by_cases h1 : rem.length ≤ chunkSize
        · rw [splitLoop, if_neg h0, if_pos h1] at hx
          simp only [List.nil_append, List.mem_singleton] at hx
          subst hx
          intro hc
          rw [hc] at h0
          simp at h0
        · rw [splitLoop_cons h1] at hx
          rcases List.mem_cons.mp hx with h | h
          · subst h
            have hbp : findBreakPoint rem chunkSize ≠ 0 := by
              intro hz
              have := findBreakPoint_eq_zero hcs hz
              rcases rem with _ | ⟨c, t⟩
              · simp at h0
              · simp only [List.get?] at this
                apply hh
                rw [List.head?]
                exact congrArg some (by injection this)
            intro hc
            have := congrArg List.length hc
            simp only [List.length_take, List.length_nil] at this
            omega
          · refine ih _ ?_ x h
            intro hcontra
            rcases hmatch : jsTrim (rem.drop (findBreakPoint rem chunkSize)) with _ | ⟨c, t⟩
            · rw [hmatch] at hcontra; simp at hcontra
            · rw [hmatch] at hcontra
              have hnws := jsTrim_head_not_ws hmatch
              simp only [List.head?] at hcontra
              have hcsp : c = ' ' := by injection hcontra
              subst hcsp
              simp [isJSWhitespace] at hnws

/-- **C5 amended.** For every text and positive limit: no chunk other than
the first is ever empty, and the first chunk is empty only when the input
text itself is empty, or the input exceeds the limit and begins with a space
(which the Chunker then selects as a break point at index 0). -/
theorem splitTextIntoChunks_empty_chunk_amended (text : List Char) (limit : Nat)
    (hlim : 0 < limit) :
    (∀ x ∈ (splitTextIntoChunks text limit).drop 1, x ≠ []) ∧
      ((splitTextIntoChunks text limit).head? = some [] →
        text = [] ∨ text.head? = some ' ') := by
  unfold splitTextIntoChunks
  by_cases h : text.length ≤ limit
  · rw [if_pos h]
    constructor
    · intro x hx; simp at hx
    · intro hh
      simp only [List.head?_cons, Option.some.injEq] at hh
      exact Or.inl hh
  · rw [if_neg h]
    have hgt : ¬ text.length ≤ limit := h
    have hlen1 : 1 ≤ text.length := by omega
    rcases hfuel : text.length with _ | fuel
    · omega
    · rw [splitLoop_cons (by omega)]
      constructor
      · intro x hx
        simp only [List.drop_succ_cons, List.drop_zero] at hx
        refine splitLoop_no_empty_chunk limit hlim fuel _ ?_ x hx
        intro hcontra
        rcases hmatch : jsTrim (text.drop (findBreakPoint text limit)) with _ | ⟨c, t⟩
        · rw [hmatch] at hcontra; simp at hcontra
        · rw [hmatch] at hcontra
          have hnws := jsTrim_head_not_ws hmatch
          simp only [List.head?] at hcontra
          have hcsp : c = ' ' := by injection hcontra
          subst hcsp
          simp [isJSWhitespace] at hnws
      · intro hh
        simp only [List.head?] at hh
        injection hh with hh
        right
        have hbp : findBreakPoint text limit = 0 := by
          have := congrArg List.length hh.symm
          simp only [List.length_take, List.length_nil] at this
          omega
        have := findBreakPoint_eq_zero hlim hbp
        rcases text with _ | ⟨c, t⟩
        · simp at h
        · simp only [List.get?] at this
          rw [List.head?]
          exact congrArg some (by injection this)

/-- Witness for the amended C5 at input `" aa"`, limit 2. -/
theorem splitTextIntoChunks_empty_chunk_amended_witness :
    0 < 2 ∧
      ((∀ x ∈ (splitTextIntoChunks (' ' :: 'a' :: 'a' :: []) 2).drop 1, x ≠ []) ∧
        ((splitTextIntoChunks (' ' :: 'a' :: 'a' :: []) 2).head? = some [] →
          (' ' :: 'a' :: 'a' :: [] : List Char) = [] ∨
            (' ' :: 'a' :: 'a' :: [] : List Char).head? = some ' ')) :=
  ⟨by decide, splitTextIntoChunks_empty_chunk_amended (' ' :: 'a' :: 'a' :: []) 2 (by decide)⟩

/-! ## C7: reconstruction of the input from the chunks -/

/-- `interleaveJoin [c₀, …, cₙ] [w₀, …, wₙ] = c₀ ++ w₀ ++ c₁ ++ w₁ ++ … ++ cₙ ++ wₙ`:
the chunks joined with one separator string after each chunk. -/
def interleaveJoin : List (List Char) → List (List Char) → List Char
  | [], _ => []
  | _ :: _, [] => []
  | c :: cs, w :: ws => c ++ (w ++ interleaveJoin cs ws)

/-- Decomposition corresponding to `trim`: every list is its trimmed core
surrounded by whitespace. -/
theorem jsTrim_decomp (l : List Char) :
    ∃ lead trail, (∀ c ∈ lead, isJSWhitespace c = true) ∧
      (∀ c ∈ trail, isJSWhitespace c = true) ∧
      l = lead ++ jsTrim l ++ trail := by
  refine ⟨l.takeWhile isJSWhitespace,
    ((l.dropWhile isJSWhitespace).reverse.takeWhile isJSWhitespace).reverse, ?_, ?_, ?_⟩
  · intro c hc; exact List.mem_takeWhile_imp hc
  · intro c hc
    rw [List.mem_reverse] at hc
    exact List.mem_takeWhile_imp hc
  · unfold jsTrim
    have h2 : l.dropWhile isJSWhitespace =
        ((l.dropWhile isJSWhitespace).reverse.dropWhile isJSWhitespace).reverse ++
          ((l.dropWhile isJSWhitespace).reverse.takeWhile isJSWhitespace).reverse := by
      conv_lhs => rw [← List.reverse_reverse (l.dropWhile isJSWhitespace),
        ← @List.takeWhile_append_dropWhile Char isJSWhitespace
          (l.dropWhile isJSWhitespace).reverse]
      rw [List.reverse_append]
    conv_lhs => rw [← @List.takeWhile_append_dropWhile Char isJSWhitespace l, h2]
    simp only [List.append_assoc]

theorem splitLoop_nil (chunkSize fuel : Nat) : splitLoop chunkSize fuel [] [] = [] := by
  cases fuel <;> simp [splitLoop]

/-- Loop invariant for the reconstruction property: the text remaining at any
iteration, followed by the whitespace already trimmed off its tail, is the
interleave-join of the chunks still to be produced with suitable whitespace
separators. -/
theorem splitLoop_reconstruct {chunkSize : Nat} (hcs : 0 < chunkSize) :
    ∀ (fuel : Nat) (rem trail : List Char),
      rem.length ≤ fuel →
      (∀ c ∈ trail, isJSWhitespace c = true) →
      (rem = [] → trail = []) →
      ∃ ws : List (List Char),
        ws.length = (splitLoop chunkSize fuel rem []).length ∧
        (∀ w ∈ ws, ∀ c ∈ w, isJSWhitespace c = true) ∧
        interleaveJoin (splitLoop chunkSize fuel rem []) ws = rem ++ trail := by
  intro fuel
  induction fuel with
  | zero =>
      intro rem trail hf hws hguard
      have hrem : rem = [] := by
        rcases rem with _ | _
        · rfl
        · simp at hf
      subst hrem
      rw [hguard rfl]
      exact ⟨[], by simp [splitLoop], by simp, by simp [splitLoop, interleaveJoin]⟩
  | succ fuel ih =>
      intro rem trail hf hws hguard
      by_cases h0 : rem.length = 0
      · have hrem : rem = [] := List.length_eq_zero.mp h0
        subst hrem
        rw [hguard rfl]
        exact ⟨[], by simp [splitLoop], by simp, by simp [splitLoop, interleaveJoin]⟩
      · by_cases h1 : rem.length ≤ chunkSize
        · rw [splitLoop, if_neg h0, if_pos h1]
          refine ⟨[trail], by simp, ?_, ?_⟩
          · intro w hw
            simp only [List.mem_singleton] at hw
            subst hw; exact hws
          · simp [interleaveJoin]
        · rw [splitLoop_cons h1]
          set bp := findBreakPoint rem chunkSize with hbp
          set core := jsTrim (rem.drop bp) with hcore
          obtain ⟨lead, trailStep, hlead, htrailStep, hdecomp⟩ := jsTrim_decomp (rem.drop bp)
          rw [← hcore] at hdecomp
          by_cases hc : core = []
          · rw [hc, splitLoop_nil]
            refine ⟨[lead ++ trailStep ++ trail], by simp, ?_, ?_⟩
            · intro w hw
              simp only [List.mem_singleton] at hw
              subst hw
              intro c hcmem
              rcases List.mem_append.mp hcmem with h | h
              · rcases List.mem_append.mp h with h' | h'
                · exact hlead c h'
                · exact htrailStep c h'
              · exact hws c h
            · show rem.take bp ++ ((lead ++ trailStep ++ trail) ++ interleaveJoin [] []) = rem ++ trail
              rw [hc] at hdecomp
              conv_rhs => rw [← List.take_append_drop bp rem, hdecomp]
              simp [interleaveJoin]
          · have hdec : core.length < rem.length := by
              rw [hcore, hbp]
              exact splitLoop_decrease hcs (by omega)
            obtain ⟨ws', hlen', hws', hint'⟩ :=
              ih core (trailStep ++ trail) (by omega)
                (by
                  intro c hcmem
                  rcases List.mem_append.mp hcmem with h | h
                  · exact htrailStep c h
                  · exact hws c h)
                (fun h => absurd h hc)
            refine ⟨lead :: ws', by simpa using hlen', ?_, ?_⟩
            · intro w hw
              rcases List.mem_cons.mp hw with h | h
              · subst h; exact hlead
              · exact hws' w h
            · show rem.take bp ++ (lead ++ interleaveJoin (splitLoop chunkSize fuel core []) ws') =
                rem ++ trail
              rw [hint']
              conv_rhs => rw [← List.take_append_drop bp rem, hdecomp]
              simp

/-- **C7 counterexample.** The claim "at forced mid-token breaks (no newline
or space break point found) the reconstruction is exact, with no characters
lost or duplicated" fails: `"aa\tbb"` with limit 2 contains no newline and no
space, so every break is forced, yet the tab is lost: the chunks are
`["aa", "bb"]` and their concatenation is `"aabb" ≠ "aa\tbb"` (the `trim`
applied to the remainder deletes the tab even at a forced break). -/
theorem splitTextIntoChunks_reconstruct_cex :
    ¬ ('\n' ∈ ('a' :: 'a' :: '\t' :: 'b' :: 'b' :: [] : List Char)) ∧
      ¬ (' ' ∈ ('a' :: 'a' :: '\t' :: 'b' :: 'b' :: [] : List Char)) ∧
      splitTextIntoChunks ('a' :: 'a' :: '\t' :: 'b' :: 'b' :: []) 2 =
        ('a' :: 'a' :: []) :: ('b' :: 'b' :: []) :: [] ∧
      (splitTextIntoChunks ('a' :: 'a' :: '\t' :: 'b' :: 'b' :: []) 2).flatten ≠
        ('a' :: 'a' :: '\t' :: 'b' :: 'b' :: []) := by
  decide

/-- **C7 amended.** For every text and positive limit, the chunks concatenated
in order reconstruct the text modulo whitespace trimmed at break points:
there are whitespace-only strings, one after each chunk, whose interleaving
with the chunks reproduces the text exactly. (At a break the `trim` of the
remainder may delete any whitespace characters — including, at a forced
mid-token break, whitespace other than newline and space, such as a tab — so
reconstruction at forced breaks is not always exact.) -/
theorem splitTextIntoChunks_reconstruct (text : List Char) (limit : Nat)
    (hlim : 0 < limit) :
    ∃ ws : List (List Char),
      ws.length = (splitTextIntoChunks text limit).length ∧
      (∀ w ∈ ws, ∀ c ∈ w, isJSWhitespace c = true) ∧
      interleaveJoin (splitTextIntoChunks text limit) ws = text := by
  unfold splitTextIntoChunks
  by_cases h : text.length ≤ limit
  · rw [if_pos h]
    exact ⟨[[]], by simp, by simp, by simp [interleaveJoin]⟩
  · rw [if_neg h]
    obtain ⟨ws, h1, h2, h3⟩ :=
      splitLoop_reconstruct hlim text.length text [] (Nat.le_refl _) (by simp)
        (fun _ => rfl)
    exact ⟨ws, h1, h2, by simpa using h3⟩

/-- Witness for the amended C7 at input `"aa\tbb"`, limit 2. -/
theorem splitTextIntoChunks_reconstruct_witness :
    0 < 2 ∧
      ∃ ws : List (List Char),
        ws.length = (splitTextIntoChunks ('a' :: 'a' :: '\t' :: 'b' :: 'b' :: []) 2).length ∧
        (∀ w ∈ ws, ∀ c ∈ w, isJSWhitespace c = true) ∧
        interleaveJoin (splitTextIntoChunks ('a' :: 'a' :: '\t' :: 'b' :: 'b' :: []) 2) ws =
          ('a' :: 'a' :: '\t' :: 'b' :: 'b' :: []) :=
  ⟨by decide, splitTextIntoChunks_reconstruct ('a' :: 'a' :: '\t' :: 'b' :: 'b' :: []) 2 (by decide)⟩

/-! ## The Presentation Batcher -/

/-- The data of an `EmbedBuilder` as the Dispatcher reads it: optional title,
optional description (body text), optional footer text, optional color tag.
Strings are `List Char`. -/
structure EmbedData where
  title : Option (List Char)
  description : Option (List Char)
  footer : Option (List Char)
  color : Option (List Char)
deriving DecidableEq

/-- `estimateEmbedSize` (source lines 100–122): title length plus description
length plus footer text length plus 100 characters of overhead. (The source
guards each addend with a truthiness check; an absent or empty field
contributes `0` either way, so `Option.getD []` is equivalent.) -/
def estimateEmbedSize (embed : EmbedData) : Nat :=
  (embed.title.getD []).length + (embed.description.getD []).length +
    (embed.footer.getD []).length + 100

/-- The loop of `groupEmbedsIntoBatches` (source lines 134–152), with the
state `(batches, currentBatch, currentBatchSize)` passed explicitly. -/
def groupLoop : List EmbedData → List (List EmbedData) → List EmbedData → Nat →
    List (List EmbedData)
  | [], batches, currentBatch, _ =>
      if 0 < currentBatch.length then batches ++ [currentBatch] else batches
  | embed :: rest, batches, currentBatch, currentBatchSize =>
      if DISCORD_TOTAL_MESSAGE_LIMIT < currentBatchSize + estimateEmbedSize embed ∧
          0 < currentBatch.length then
        groupLoop rest (batches ++ [currentBatch]) [embed] (estimateEmbedSize embed)
      else
        groupLoop rest batches (currentBatch ++ [embed])
          (currentBatchSize + estimateEmbedSize embed)

/-- `groupEmbedsIntoBatches` (source lines 129–155): group embeds into
batches that fit within Discord's message size limit. -/
def groupEmbedsIntoBatches (embeds : List EmbedData) : List (List EmbedData) :=
  groupLoop embeds [] [] 0

/-- Summed estimated size of a batch. -/
def sumSize (b : List EmbedData) : Nat := (b.map estimateEmbedSize).sum

/-- A batch is admissible when its summed estimated size is at or under the
total-message-size limit, or it consists of exactly one oversized unit. -/
def batchOk (b : List EmbedData) : Prop :=
  sumSize b ≤ DISCORD_TOTAL_MESSAGE_LIMIT ∨
    (b.length = 1 ∧ DISCORD_TOTAL_MESSAGE_LIMIT < sumSize b)

instance (b : List EmbedData) : Decidable (batchOk b) := by
  unfold batchOk; infer_instance

/-- A partition of the unit sequence into contiguous, order-preserving,
non-empty, admissible batches. -/
def validPartition (P : List (List EmbedData)) (embeds : List EmbedData) : Prop :=
  P.flatten = embeds ∧ (∀ b ∈ P, b ≠ []) ∧ ∀ b ∈ P, batchOk b

instance (P : List (List EmbedData)) (embeds : List EmbedData) :
    Decidable (validPartition P embeds) := by
  unfold validPartition; infer_instance

/-- The maximal prefix of `l` the greedy loop still adds to a batch whose
running total is `acc`, together with the untouched remainder. -/
def greedyChunk (acc : Nat) : List EmbedData → List EmbedData × List EmbedData
  | [] => ([], [])
  | embed :: rest =>
      if DISCORD_TOTAL_MESSAGE_LIMIT < acc + estimateEmbedSize embed then ([], embed :: rest)
      else
        let p := greedyChunk (acc + estimateEmbedSize embed) rest
        (embed :: p.1, p.2)

theorem greedyChunk_append (acc : Nat) (l : List EmbedData) :
    (greedyChunk acc l).1 ++ (greedyChunk acc l).2 = l := by
  induction l generalizing acc with
  | nil => simp [greedyChunk]
  | cons e rest ih =>
      by_cases h : DISCORD_TOTAL_MESSAGE_LIMIT < acc + estimateEmbedSize e
      · simp [greedyChunk, h]
      · simp only [greedyChunk, if_neg h, List.cons_append, List.cons.injEq, true_and]
        exact ih _

theorem greedyChunk_snd_length (acc : Nat) (l : List EmbedData) :
    (greedyChunk acc l).2.length ≤ l.length := by
  have := congrArg List.length (greedyChunk_append acc l)
  simp only [List.length_append] at this
  omega

/-- The recursive restatement of the greedy loop: one batch per step. -/
def greedyGroup : List EmbedData → List (List EmbedData)
  | [] => []
  | embed :: rest =>
      (embed :: (greedyChunk (estimateEmbedSize embed) rest).1) ::
        greedyGroup (greedyChunk (estimateEmbedSize embed) rest).2
termination_by l => l.length
decreasing_by
  simp only [List.length_cons]
  have := greedyChunk_snd_length (estimateEmbedSize embed) rest
  omega

theorem greedyGroup_nil : greedyGroup [] = [] := by
  rw [greedyGroup]

theorem greedyGroup_cons (embed : EmbedData) (rest : List EmbedData) :
    greedyGroup (embed :: rest) =
      (embed :: (greedyChunk (estimateEmbedSize embed) rest).1) ::
        greedyGroup (greedyChunk (estimateEmbedSize embed) rest).2 := by
  rw [greedyGroup]

/-- The accumulator form of the source loop agrees with the recursive form:
entering the loop with a non-empty current batch produces that batch extended
by the greedy chunk, then the greedy grouping of the remainder. -/
theorem groupLoop_bridge :
    ∀ (l : List EmbedData) (batches : List (List EmbedData))
      (cur : List EmbedData) (size : Nat), cur ≠ [] →
      groupLoop l batches cur size =
        batches ++ ((cur ++ (greedyChunk size l).1) :: greedyGroup (greedyChunk size l).2) := by
  intro l
  induction l with
  | nil =>
      intro batches cur size hcur
      have : 0 < cur.length := List.length_pos.mpr hcur
      simp [groupLoop, this, greedyChunk, greedyGroup_nil]
  | cons e rest ih =>
      intro batches cur size hcur
      have hcurlen : 0 < cur.length := List.length_pos.mpr hcur
      by_cases h : DISCORD_TOTAL_MESSAGE_LIMIT < size + estimateEmbedSize e
      · rw [groupLoop, if_pos ⟨h, hcurlen⟩, ih _ _ _ (by simp)]
        simp only [greedyChunk, if_pos h, List.append_nil, greedyGroup_cons]
        simp
      · have hcond : ¬ (DISCORD_TOTAL_MESSAGE_LIMIT < size + estimateEmbedSize e ∧
            0 < cur.length) := by
          intro hc; exact h hc.1
        rw [groupLoop, if_neg hcond, ih _ _ _ (by simp)]
        simp only [greedyChunk, if_neg h]
        simp

/-- The source batcher coincides with the recursive greedy grouping. -/
theorem groupEmbedsIntoBatches_eq (embeds : List EmbedData) :
    groupEmbedsIntoBatches embeds = greedyGroup embeds := by
  rcases embeds with _ | ⟨e, rest⟩
  · simp [groupEmbedsIntoBatches, groupLoop, greedyGroup_nil]
  · unfold groupEmbedsIntoBatches
    rw [groupLoop, if_neg (by simp), show ([] ++ [e] : List EmbedData) = [e] from rfl,
      groupLoop_bridge rest [] [e] (0 + estimateEmbedSize e) (by simp)]
    rw [greedyGroup_cons]
    simp

/-! ## Properties of the greedy grouping -/

theorem greedyGroup_flatten_aux :
    ∀ (n : Nat) (l : List EmbedData), l.length ≤ n → (greedyGroup l).flatten = l := by
  intro n
  induction n with
  | zero =>
      intro l hl
      have : l = [] := by
        rcases l with _ | _
        · rfl
        · simp at hl
      subst this
      simp [greedyGroup_nil]
  | succ n ih =>
      intro l hl
      rcases l with _ | ⟨e, rest⟩
      · simp [greedyGroup_nil]
      · rw [greedyGroup_cons]
        have hlen := greedyChunk_snd_length (estimateEmbedSize e) rest
        have := ih (greedyChunk (estimateEmbedSize e) rest).2 (by simp at hl; omega)
        simp only [List.flatten_cons, this, List.cons_append]
        rw [greedyChunk_append]

theorem greedyGroup_flatten (l : List EmbedData) : (greedyGroup l).flatten = l :=
  greedyGroup_flatten_aux l.length l (Nat.le_refl _)

theorem greedyGroup_nonempty_aux :
    ∀ (n : Nat) (l : List EmbedData), l.length ≤ n →
      ∀ b ∈ greedyGroup l, b ≠ [] := by
  intro n
  induction n with
  | zero =>
      intro l hl b hb
      have : l = [] := by
        rcases l with _ | _
        · rfl
        · simp at hl
      subst this
      rw [greedyGroup_nil] at hb
      simp at hb
  | succ n ih =>
      intro l hl b hb
      rcases l with _ | ⟨e, rest⟩
      · rw [greedyGroup_nil] at hb; simp at hb
      · rw [greedyGroup_cons] at hb
        rcases List.mem_cons.mp hb with h | h
        · subst h; simp
        · have hlen := greedyChunk_snd_length (estimateEmbedSize e) rest
          exact ih _ (by simp at hl; omega) b h

/-- If the running total is already admissible, the greedy chunk keeps the
total admissible. -/
theorem greedyChunk_sum {acc : Nat} (hacc : acc ≤ DISCORD_TOTAL_MESSAGE_LIMIT) :
    ∀ l : List EmbedData, acc + sumSize (greedyChunk acc l).1 ≤ DISCORD_TOTAL_MESSAGE_LIMIT := by
  intro l
  induction l generalizing acc with
  | nil => simpa [greedyChunk, sumSize] using hacc
  | cons e rest ih =>
      by_cases h : DISCORD_TOTAL_MESSAGE_LIMIT < acc + estimateEmbedSize e
      · simpa [greedyChunk, h, sumSize] using hacc
      · push_neg at h
        have := @ih (acc + estimateEmbedSize e) h
        simp only [greedyChunk, if_neg (by omega : ¬ DISCORD_TOTAL_MESSAGE_LIMIT <
          acc + estimateEmbedSize e)]
        simp only [sumSize, List.map_cons, List.sum_cons] at this ⊢
        omega

/-- An oversized running total immediately closes the chunk. -/
theorem greedyChunk_oversized {acc : Nat} (hacc : DISCORD_TOTAL_MESSAGE_LIMIT < acc)
    (l : List EmbedData) : (greedyChunk acc l).1 = [] := by
  rcases l with _ | ⟨e, rest⟩
  · simp [greedyChunk]
  · have : DISCORD_TOTAL_MESSAGE_LIMIT < acc + estimateEmbedSize e := by omega
    simp [greedyChunk, this]

theorem greedyGroup_batchOk_aux :
    ∀ (n : Nat) (l : List EmbedData), l.length ≤ n →
      ∀ b ∈ greedyGroup l, batchOk b := by
  intro n
  induction n with
  | zero =>
      intro l hl b hb
      have : l = [] := by
        rcases l with _ | _
        · rfl
        · simp at hl
      subst this
      rw [greedyGroup_nil] at hb
      simp at hb
  | succ n ih =>
      intro l hl b hb
      rcases l with _ | ⟨e, rest⟩
      · rw [greedyGroup_nil] at hb; simp at hb
      · rw [greedyGroup_cons] at hb
        rcases List.mem_cons.mp hb with h | h
        · subst h
          by_cases hsz : estimateEmbedSize e ≤ DISCORD_TOTAL_MESSAGE_LIMIT
          · left
            have := greedyChunk_sum hsz rest
            simp only [sumSize, List.map_cons, List.sum_cons] at this ⊢
            omega
          · push_neg at hsz
            right
            rw [greedyChunk_oversized hsz rest]
            constructor
            · rfl
            · simpa [sumSize] using hsz
        · have hlen := greedyChunk_snd_length (estimateEmbedSize e) rest
          exact ih _ (by simp at hl; omega) b h

/-! ## C8: the batcher partitions its input -/

/-- **C8 counterexample.** The claim "returns one or more non-empty batches"
fails for the empty unit sequence: the batcher returns zero batches. (The
Dispatcher only ever calls it on non-empty sequences.) -/
theorem groupEmbedsIntoBatches_cex : (groupEmbedsIntoBatches []).length = 0 := rfl

/-- **C8 amended.** For every *non-empty* sequence of DisplayUnits, the
Batcher returns one or more non-empty batches whose in-order concatenation is
exactly the input sequence (hence the total unit count is preserved and order
is preserved), and no batch's summed estimated size exceeds the
total-message-size limit unless that batch consists of exactly one oversized
unit. -/
theorem groupEmbedsIntoBatches_spec (embeds : List EmbedData) (h : embeds ≠ []) :
    1 ≤ (groupEmbedsIntoBatches embeds).length ∧
      (groupEmbedsIntoBatches embeds).flatten = embeds ∧
      (∀ b ∈ groupEmbedsIntoBatches embeds, b ≠ []) ∧
      (∀ b ∈ groupEmbedsIntoBatches embeds, batchOk b) := by
  rw [groupEmbedsIntoBatches_eq]
  refine ⟨?_, greedyGroup_flatten embeds,
    greedyGroup_nonempty_aux embeds.length embeds (Nat.le_refl _),
    greedyGroup_batchOk_aux embeds.length embeds (Nat.le_refl _)⟩
  rcases embeds with _ | ⟨e, rest⟩
  · exact absurd rfl h
  · rw [greedyGroup_cons]
    simp

/-- Witness for the amended C8 at a concrete two-unit input. -/
theorem groupEmbedsIntoBatches_spec_witness :
    (⟨none, none, none, none⟩ :: ⟨some ('t' :: []), none, none, none⟩ :: [] :
        List EmbedData) ≠ [] ∧
      (1 ≤ (groupEmbedsIntoBatches
          (⟨none, none, none, none⟩ :: ⟨some ('t' :: []), none, none, none⟩ :: [])).length ∧
        (groupEmbedsIntoBatches
          (⟨none, none, none, none⟩ :: ⟨some ('t' :: []), none, none, none⟩ :: [])).flatten =
          (⟨none, none, none, none⟩ :: ⟨some ('t' :: []), none, none, none⟩ :: []) ∧
        (∀ b ∈ groupEmbedsIntoBatches
          (⟨none, none, none, none⟩ :: ⟨some ('t' :: []), none, none, none⟩ :: []), b ≠ []) ∧
        (∀ b ∈ groupEmbedsIntoBatches
          (⟨none, none, none, none⟩ :: ⟨some ('t' :: []), none, none, none⟩ :: []), batchOk b)) :=
  ⟨by decide, groupEmbedsIntoBatches_spec _ (by decide)⟩

/-! ## C9: the greedy batching is optimal -/

theorem sumSize_append (u v : List EmbedData) : sumSize (u ++ v) = sumSize u + sumSize v := by
  simp [sumSize]

theorem sumSize_suffix {t b : List EmbedData} (h : t <:+ b) : sumSize t ≤ sumSize b := by
  rcases h with ⟨u, hu⟩
  rw [← hu, sumSize_append]
  omega

/-- A suffix of `b₁ ++ l₂` is a suffix of `l₂`, or extends a non-empty suffix
of `b₁` by the whole of `l₂`. -/
theorem suffix_append_dichotomy {s b₁ l₂ : List EmbedData} (h : s <:+ b₁ ++ l₂) :
    s <:+ l₂ ∨ ∃ t, t ≠ [] ∧ t <:+ b₁ ∧ s = t ++ l₂ := by
  by_cases hlen : s.length ≤ l₂.length
  · left
    have h₂ : l₂ <:+ b₁ ++ l₂ := ⟨b₁, rfl⟩
    have : s.reverse <+: (b₁ ++ l₂).reverse := List.reverse_prefix.mpr h
    have h₂' : l₂.reverse <+: (b₁ ++ l₂).reverse := List.reverse_prefix.mpr h₂
    have := List.prefix_of_prefix_length_le this h₂' (by simpa using hlen)
    exact List.reverse_prefix.mp this
  · right
    rcases h with ⟨u, hu⟩
    rcases List.append_eq_append_iff.mp hu with ⟨t, ht₁, ht₂⟩ | ⟨c', hc₁, hc₂⟩
    · refine ⟨t, ?_, ⟨u, ht₁.symm⟩, ht₂⟩
      intro hte
      subst hte
      rw [List.nil_append] at ht₂
      subst ht₂
      exact hlen (Nat.le_refl _)
    · exfalso
      apply hlen
      rw [hc₂]
      simp

/-- Greedy maximality: if a further prefix `u` would still keep the running
total admissible, the greedy chunk reaches at least as far as `u`. -/
theorem greedyChunk_maximal :
    ∀ (u : List EmbedData) (v : List EmbedData) (acc : Nat),
      acc + sumSize u ≤ DISCORD_TOTAL_MESSAGE_LIMIT →
      u.length ≤ (greedyChunk acc (u ++ v)).1.length := by
  intro u
  induction u with
  | nil => intro v acc h; simp
  | cons e u' ih =>
      intro v acc h
      simp only [sumSize, List.map_cons, List.sum_cons] at h
      have hcond : ¬ DISCORD_TOTAL_MESSAGE_LIMIT < acc + estimateEmbedSize e := by omega
      simp only [List.cons_append, greedyChunk, if_neg hcond, List.length_cons]
      have := ih v (acc + estimateEmbedSize e) (by simp only [sumSize]; omega)
      simp only [List.append_eq] at this ⊢
      omega

/-- If `c ++ r = t ++ l₂` and `c` is at least as long as `t`, then `r` is a
suffix of `l₂`. -/
theorem suffix_of_longer_prefix {c r t l₂ : List EmbedData}
    (h : c ++ r = t ++ l₂) (hlen : t.length ≤ c.length) : r <:+ l₂ := by
  rcases List.append_eq_append_iff.mp h with ⟨a', ha₁, ha₂⟩ | ⟨c', hc₁, hc₂⟩
  · have : a' = [] := by
      have := congrArg List.length ha₁
      simp only [List.length_append] at this
      rcases a' with _ | _
      · rfl
      · exfalso; simp at this; omega
    subst this
    rw [ha₂]
    exact ⟨[], by simp⟩
  · rw [hc₂]
    exact ⟨c', rfl⟩

/-- The greedy grouping of any suffix of a validly partitioned sequence never
uses more batches than the partition. -/
theorem greedyGroup_minimal_aux :
    ∀ (n : Nat) (l : List EmbedData) (P : List (List EmbedData)) (s : List EmbedData),
      l.length ≤ n → P.flatten = l → (∀ b ∈ P, b ≠ []) → (∀ b ∈ P, batchOk b) →
      s <:+ l → (greedyGroup s).length ≤ P.length := by
  intro n
  induction n with
  | zero =>
      intro l P s hl hj hne hok hs
      have hle : l = [] := by
        rcases l with _ | _
        · rfl
        · simp at hl
      subst hle
      have : s = [] := List.suffix_nil.mp hs
      subst this
      simp [greedyGroup_nil]
  | succ n ih =>
      intro l P s hl hj hne hok hs
      rcases s with _ | ⟨e, s'⟩
      · simp [greedyGroup_nil]
      · rcases P with _ | ⟨b₁, P'⟩
        · exfalso
          simp only [List.flatten_nil] at hj
          rw [← hj] at hs
          have := List.suffix_nil.mp hs
          cases this
        · have hb₁ : b₁ ≠ [] := hne b₁ (List.mem_cons_self _ _)
          have hb₁len : 1 ≤ b₁.length := List.length_pos.mpr hb₁
          simp only [List.flatten_cons] at hj
          have hlen₂ : P'.flatten.length ≤ n := by
            have := congrArg List.length hj
            simp only [List.length_append] at this
            omega
          have hs' : (e :: s') <:+ b₁ ++ P'.flatten := hj ▸ hs
          have hP'ne : ∀ b ∈ P', b ≠ [] := fun b hb => hne b (List.mem_cons_of_mem _ hb)
          have hP'ok : ∀ b ∈ P', batchOk b := fun b hb => hok b (List.mem_cons_of_mem _ hb)
          rcases suffix_append_dichotomy hs' with hcase | ⟨t, htne, htsuf, hteq⟩
          · have := ih P'.flatten P' (e :: s') hlen₂ rfl hP'ne hP'ok hcase
            simp only [List.length_cons]
            omega
          · rcases t with _ | ⟨e', t''⟩
            · exact absurd rfl htne
            · have he : e' = e ∧ s' = t'' ++ P'.flatten := by
                rw [List.cons_append] at hteq
                exact ⟨(List.cons.inj hteq).1.symm, (List.cons.inj hteq).2⟩
              rcases he with ⟨he₁, he₂⟩
              rw [he₁] at htsuf
              rw [greedyGroup_cons]
              have happ := greedyChunk_append (estimateEmbedSize e) s'
              have hrsuf : (greedyChunk (estimateEmbedSize e) s').2 <:+ P'.flatten := by
                rcases hok b₁ (List.mem_cons_self _ _) with hsum | ⟨hlen1, _⟩
                · have hts : sumSize (e :: t'') ≤ sumSize b₁ := sumSize_suffix htsuf
                  have hmax : t''.length ≤ (greedyChunk (estimateEmbedSize e) s').1.length := by
                    rw [he₂]
                    apply greedyChunk_maximal t'' P'.flatten (estimateEmbedSize e)
                    simp only [sumSize, List.map_cons, List.sum_cons] at hts hsum
                    simp only [sumSize]
                    omega
                  exact suffix_of_longer_prefix (by rw [happ, he₂]) hmax
                · have : t'' = [] := by
                    have := htsuf.length_le
                    simp only [List.length_cons, hlen1] at this
                    rcases t'' with _ | _
                    · rfl
                    · exfalso; simp at this
                  subst this
                  rw [List.nil_append] at he₂
                  exact ⟨(greedyChunk (estimateEmbedSize e) s').1, happ.trans he₂⟩
              have := ih P'.flatten P' _ hlen₂ rfl hP'ne hP'ok hrsuf
              simp only [List.length_cons]
              omega

/-- **C9.** For every sequence of DisplayUnits, the Batcher's result is itself
a partition into contiguous, order-preserving, non-empty, admissible batches,
and its number of batches is the minimum possible over all such partitions
(each batch's summed estimated size at most the total-message-size limit, or
a single oversized unit). -/
theorem groupEmbedsIntoBatches_minimal (embeds : List EmbedData) :
    validPartition (groupEmbedsIntoBatches embeds) embeds ∧
      ∀ P, validPartition P embeds →
        (groupEmbedsIntoBatches embeds).length ≤ P.length := by
  constructor
  · rw [groupEmbedsIntoBatches_eq]
    exact ⟨greedyGroup_flatten embeds,
      greedyGroup_nonempty_aux embeds.length embeds (Nat.le_refl _),
      greedyGroup_batchOk_aux embeds.length embeds (Nat.le_refl _)⟩
  · intro P hP
    rw [groupEmbedsIntoBatches_eq]
    exact greedyGroup_minimal_aux embeds.length embeds P embeds (Nat.le_refl _)
      hP.1 hP.2.1 hP.2.2 (List.suffix_refl _)

/-- A small sample embed used by witnesses. -/
def sampleEmbedA : EmbedData := ⟨none, none, none, none⟩

/-- A second small sample embed used by witnesses. -/
def sampleEmbedB : EmbedData := ⟨some ('t' :: []), none, none, none⟩

/-- Witness for C9: the greedy result for a concrete two-unit input compared
against a concrete alternative partition into two singleton batches. -/
theorem groupEmbedsIntoBatches_minimal_witness :
    validPartition (groupEmbedsIntoBatches (sampleEmbedA :: sampleEmbedB :: []))
        (sampleEmbedA :: sampleEmbedB :: []) ∧
      (groupEmbedsIntoBatches (sampleEmbedA :: sampleEmbedB :: [])).length ≤
        ((sampleEmbedA :: []) :: (sampleEmbedB :: []) :: []).length :=
  ⟨(groupEmbedsIntoBatches_minimal _).1,
    (groupEmbedsIntoBatches_minimal _).2 ((sampleEmbedA :: []) :: (sampleEmbedB :: []) :: [])
      (by decide)⟩

/-! ## `createMultipleEmbeds` -/

/-- JavaScript `x?.toString() || dflt` on an optional string: an absent or
empty string falls back to the default (source lines 332, 334, 336). -/
def jsOr (o : Option (List Char)) (dflt : List Char) : List Char :=
  match o with
  | some s => if s = [] then dflt else s
  | none => dflt

/-- The default embed color `'#0099ff'`. -/
def defaultEmbedColor : List Char := ['#', '0', '0', '9', '9', 'f', 'f']

/-- `createMultipleEmbeds` (source lines 67–93): split the text into chunks
with the default limit and build one embed per chunk; only the first embed
carries the title, only the last carries the footer (when one is given),
every embed carries the color. -/
def createMultipleEmbeds (title text color : List Char) (footer : Option (List Char)) :
    List EmbedData :=
  let chunks := splitTextIntoChunks text DISCORD_EMBED_DESCRIPTION_LIMIT
  (List.range chunks.length).map (fun i =>
    ⟨if i = 0 then some title else none,
      some (chunks.getD i []),
      if i = chunks.length - 1 then footer else none,
      some color⟩)

/-! ## The Delivery Dispatcher (`safeReply`)

The Dispatcher is modelled as a state-passing computation. The state records
the number of platform calls made so far, the interaction's completion flags
(`deferred` / `replied`), and a trace of every attempted platform call. An
environment `env : Nat → Option String` decides the outcome of the n-th
platform call: `none` means the call resolves, `some m` means it rejects
with error message `m` (this quantifies over every possible pattern of
platform failures). `try`/`catch` is modelled by `tryCatchR` over an
`Except`-valued result. -/

/-- What a platform call delivers: a plain text, or a list of embeds. -/
inductive Payload where
  | text (s : String)
  | embeds (l : List EmbedData)
deriving DecidableEq

/-- The platform send primitive used by a call:
`msgReply` = `Message.reply`, `userSend` = `author.send` / `user.send`
(direct message), `intReply` = `interaction.reply` (initial reply),
`intEdit` = `interaction.editReply`, `intFollowUp` = `interaction.followUp`,
`channelSend` = `message.channel.send`. -/
inductive Prim where
  | msgReply
  | userSend
  | intReply
  | intEdit
  | intFollowUp
  | channelSend
deriving DecidableEq

/-- `intReply` and `intEdit` are the initial-reply and edit/update
primitives of a `DeferredInteraction`. -/
def isInitOrEdit : Prim → Bool
  | .intReply => true
  | .intEdit => true
  | _ => false

/-- One attempted platform call: primitive, payload, and whether it
resolved. -/
structure CallRec where
  prim : Prim
  payload : Payload
  ok : Bool
deriving DecidableEq

/-- Dispatcher execution state: platform call counter, the interaction's
completion flags, and the trace of attempted calls. -/
structure ExecState where
  idx : Nat
  deferred : Bool
  replied : Bool
  trace : List CallRec
deriving DecidableEq

/-- The Dispatcher computation type: state in, state and either a thrown
error message or a value out. -/
def ReplyM (α : Type) : Type := ExecState → ExecState × Except String α

def pureR {α : Type} (a : α) : ReplyM α := fun st => (st, Except.ok a)

def bindR {α β : Type} (x : ReplyM α) (f : α → ReplyM β) : ReplyM β := fun st =>
  match x st with
  | (st', Except.ok a) => f a st'
  | (st', Except.error m) => (st', Except.error m)

/-- `try { x } catch (m) { h m }`. -/
def tryCatchR {α : Type} (x : ReplyM α) (h : String → ReplyM α) : ReplyM α := fun st =>
  match x st with
  | (st', Except.ok a) => (st', Except.ok a)
  | (st', Except.error m) => h m st'

def getStateR : ReplyM ExecState := fun st => (st, Except.ok st)

/-- One platform send call. The environment decides whether it resolves or
rejects; a resolving initial reply or edit marks the interaction as replied
(a rejected call leaves the completion flags unchanged); every attempt is
recorded in the trace. The returned value is the handle of the sent
message. -/
def send (env : Nat → Option String) (p : Prim) (pl : Payload) : ReplyM Nat := fun st =>
  match env st.idx with
  | none =>
      (⟨st.idx + 1, st.deferred, st.replied || isInitOrEdit p,
        st.trace ++ [⟨p, pl, true⟩]⟩, Except.ok st.idx)
  | some m =>
      (⟨st.idx + 1, st.deferred, st.replied, st.trace ++ [⟨p, pl, false⟩]⟩, Except.error m)

/-- The content argument of `safeReply`: a plain string or `{ embeds }`. -/
inductive Content where
  | str (s : String)
  | embeds (l : List EmbedData)
deriving DecidableEq

/-- JavaScript truthiness of `embeds[0].data.description`: present and
non-empty (source line 228). -/
def descTruthy : Option (List Char) → Bool
  | none => false
  | some s => !s.isEmpty

/-- `embedBatches[0].length === 1 ? [embedBatches[0][0]] : embedBatches[0]`
(source lines 352, 367, 371, 375). -/
def firstBatchPayload (b : List EmbedData) : List EmbedData :=
  if b.length = 1 then b.take 1 else b

/-- The direct-send block that `safeReply` repeats verbatim four times
(source lines 171–194, 201–224, 232–256, 414–438): DM to the author/user
with a confirmation through the interaction primitives, or reply in channel
through the primitive selected by the completion flags. Returns the sent
message for a `Message` source, `undefined` otherwise. -/
def sendContentPlain (env : Nat → Option String) (isMsg : Bool) (pl : Payload)
    (dm : Bool) : ReplyM (Option Nat) :=
  if dm then
    if isMsg then
      bindR (send env .userSend pl) (fun h => pureR (some h))
    else
      bindR (send env .userSend pl) (fun _ =>
        bindR getStateR (fun st =>
          if st.deferred || st.replied then
            bindR (send env .intEdit (.text "Summary sent as a DM.")) (fun _ => pureR none)
          else
            bindR (send env .intReply (.text "Summary sent as a DM.")) (fun _ => pureR none)))
  else
    if isMsg then
      bindR (send env .msgReply pl) (fun h => pureR (some h))
    else
      bindR getStateR (fun st =>
        if st.deferred || st.replied then
          bindR (send env .intEdit pl) (fun _ => pureR none)
        else
          bindR (send env .intReply pl) (fun _ => pureR none))

/-- The follow-up loop over the batches after the first (source lines
297–320, 381–405, 479–502): DM sends on the DM path; otherwise
`channel.send` for a `Message` whose channel is a `TextChannel` (silently
skipped otherwise), `followUp` for an interaction. -/
def sendRest (env : Nat → Option String) (isMsg chText dm : Bool) :
    List (List EmbedData) → ReplyM Unit
  | [] => pureR ()
  | b :: rest =>
      bindR
        (if dm then bindR (send env .userSend (.embeds b)) (fun _ => pureR ())
         else if isMsg then
           (if chText then bindR (send env .channelSend (.embeds b)) (fun _ => pureR ())
            else pureR ())
         else bindR (send env .intFollowUp (.embeds b)) (fun _ => pureR ()))
        (fun _ => sendRest env isMsg chText dm rest)

/-- Multi-batch delivery (source lines 259–322, 343–408, 441–504): the first
batch through the primary send (DM send plus interaction confirmation on the
DM path; reply / edit / initial interaction reply otherwise), the remaining
batches through the follow-up loop. `useTernary` marks the long-description
copy of this block, which wraps the first batch in the (identity)
single-element conditional. -/
def sendBatches (env : Nat → Option String) (isMsg chText useTernary : Bool)
    (batches : List (List EmbedData)) (dm : Bool) : ReplyM (Option Nat) :=
  bindR
    (if dm then
      bindR (send env .userSend
          (.embeds (if useTernary then firstBatchPayload (batches.headD [])
            else batches.headD []))) (fun h =>
        if isMsg then pureR (some h)
        else
          bindR getStateR (fun st =>
            if st.deferred || st.replied then
              bindR (send env .intEdit (.text "Summary sent as a DM."))
                (fun _ => pureR (some h))
            else
              bindR (send env .intReply (.text "Summary sent as a DM."))
                (fun _ => pureR (some h))))
    else
      if isMsg then
        bindR (send env .msgReply
          (.embeds (if useTernary then firstBatchPayload (batches.headD [])
            else batches.headD []))) (fun h => pureR (some h))
      else
        bindR getStateR (fun st =>
          if st.deferred || st.replied then
            bindR (send env .intEdit
              (.embeds (if useTernary then firstBatchPayload (batches.headD [])
                else batches.headD []))) (fun _ => pureR none)
          else
            bindR (send env .intReply
              (.embeds (if useTernary then firstBatchPayload (batches.headD [])
                else batches.headD []))) (fun _ => pureR none)))
    (fun first => bindR (sendRest env isMsg chText dm (batches.drop 1)) (fun _ => pureR first))

/-- The body of the `try` block of `safeReply` (source lines 169–505):
string content and empty embed lists are sent directly; a first embed with
no (or empty) description goes through the Batcher, as does a first embed
whose description is within the limit — with a single batch sent directly as
the original content; a first embed whose description exceeds the limit is
rebuilt via `createMultipleEmbeds` from that first embed alone and sent
batch-by-batch. -/
def tryBlock (env : Nat → Option String) (isMsg chText : Bool) (content : Content)
    (dm : Bool) : ReplyM (Option Nat) :=
  match content with
  | .str s => sendContentPlain env isMsg (.text s) dm
  | .embeds embeds =>
      if embeds.length = 0 then sendContentPlain env isMsg (.embeds embeds) dm
      else if descTruthy (embeds.headD ⟨none, none, none, none⟩).description = false then
        (if (groupEmbedsIntoBatches embeds).length = 1 then
          sendContentPlain env isMsg (.embeds embeds) dm
        else sendBatches env isMsg chText false (groupEmbedsIntoBatches embeds) dm)
      else if DISCORD_EMBED_DESCRIPTION_LIMIT <
          ((embeds.headD ⟨none, none, none, none⟩).description.getD []).length then
        sendBatches env isMsg chText true
          (groupEmbedsIntoBatches
            (createMultipleEmbeds (jsOr (embeds.headD ⟨none, none, none, none⟩).title [])
              ((embeds.headD ⟨none, none, none, none⟩).description.getD [])
              (jsOr (embeds.headD ⟨none, none, none, none⟩).color defaultEmbedColor)
              (embeds.headD ⟨none, none, none, none⟩).footer)) dm
      else
        (if (groupEmbedsIntoBatches embeds).length = 1 then
          sendContentPlain env isMsg (.embeds embeds) dm
        else sendBatches env isMsg chText false (groupEmbedsIntoBatches embeds) dm)

/-- The `catch` block of `safeReply` (source lines 506–531): log, then try
exactly one plain `reply` with `"Error sending reply: " ++ m` — in channel
regardless of the DM request, and for an interaction only when it has not
been replied to (the `deferred` state is not consulted); a failure of this
fallback is swallowed. -/
def catchHandler (env : Nat → Option String) (isMsg : Bool) (dm : Bool)
    (m : String) : ReplyM (Option Nat) :=
  tryCatchR
    (if dm then
      if isMsg then
        bindR (send env .msgReply (.text ("Error sending reply: " ++ m)))
          (fun h => pureR (some h))
      else
        bindR getStateR (fun st =>
          if st.replied = false then
            bindR (send env .intReply (.text ("Error sending reply: " ++ m)))
              (fun _ => pureR none)
          else pureR none)
    else
      if isMsg then
        bindR (send env .msgReply (.text ("Error sending reply: " ++ m)))
          (fun h => pureR (some h))
      else
        bindR getStateR (fun st =>
          if st.replied = false then
            bindR (send env .intReply (.text ("Error sending reply: " ++ m)))
              (fun _ => pureR none)
          else pureR none))
    (fun _ => pureR none)

/-- `safeReply` (source lines 164–534): the try block wrapped in the
recovery boundary. -/
def safeReply (env : Nat → Option String) (isMsg chText : Bool) (content : Content)
    (dm : Bool) : ReplyM (Option Nat) :=
  tryCatchR (tryBlock env isMsg chText content dm) (catchHandler env isMsg dm)

/-- The state at the start of a `safeReply` invocation: no calls made yet,
completion flags as given by the target. -/
def initState (deferred replied : Bool) : ExecState := ⟨0, deferred, replied, []⟩

/-- Run one `safeReply` invocation from the initial state. -/
def runSafeReply (env : Nat → Option String) (isMsg chText : Bool) (content : Content)
    (dm deferred replied : Bool) : ExecState × Except String (Option Nat) :=
  safeReply env isMsg chText content dm (initState deferred replied)

/-- An environment in which every platform send throws with message `m`. -/
def envAllThrow (m : String) : Nat → Option String := fun _ => some m

/-- An environment in which every platform send resolves. -/
def envAllOk : Nat → Option String := fun _ => none

/-! ## C1: the Dispatcher never propagates an exception -/

theorem tryCatchR_ok {α : Type} (x : ReplyM α) (h : String → ReplyM α)
    (hh : ∀ m st, ∃ v, (h m st).2 = Except.ok v) (st : ExecState) :
    ∃ v, (tryCatchR x h st).2 = Except.ok v := by
  unfold tryCatchR
  rcases hx : x st with ⟨st', r⟩
  rcases r with m | a
  · exact hh m st'
  · exact ⟨a, rfl⟩

/-- The catch block itself always resolves: its fallback send is wrapped in
an inner recovery that swallows the secondary failure. -/
theorem catchHandler_ok (env : Nat → Option String) (isMsg dm : Bool) (m : String)
    (st : ExecState) : ∃ v, (catchHandler env isMsg dm m st).2 = Except.ok v := by
  unfold catchHandler
  exact tryCatchR_ok _ _ (fun m' st' => ⟨none, rfl⟩) st

/-- **C1.** For every target (message or interaction, any completion flags),
every content value (string or embed set), every DM flag, and every pattern
of platform failures (in particular when every underlying send throws), the
Dispatcher resolves: it never propagates an exception, and its result is a
sent-message handle or nothing. -/
theorem safeReply_always_resolves (env : Nat → Option String)
    (isMsg chText dm deferred replied : Bool) (content : Content) :
    ∃ v : Option Nat,
      (runSafeReply env isMsg chText content dm deferred replied).2 = Except.ok v := by
  unfold runSafeReply safeReply
  exact tryCatchR_ok _ _ (fun m st => catchHandler_ok env isMsg dm m st) _

/-! ## C2: the error-recovery fallback -/

/-- **C2 amended.** When the try block of a Dispatcher invocation throws with
message `m`, the recovery makes *at most* one fallback send attempt, with
content `"Error sending reply: " ++ m`, through the in-channel path
regardless of the original DM request: for a `LiveMessage` target via the
message reply primitive, for a `DeferredInteraction` via the *initial reply*
primitive (the tri-state flag is not consulted for the choice of primitive)
— and only when the interaction has not been replied to; an
already-replied interaction gets *no* fallback attempt. -/
theorem safeReply_fallback_amended (env : Nat → Option String)
    (isMsg chText dm deferred replied : Bool) (content : Content) (m : String)
    (stT : ExecState)
    (herr : tryBlock env isMsg chText content dm (initState deferred replied) =
      (stT, Except.error m)) :
    (runSafeReply env isMsg chText content dm deferred replied).1.trace =
      if isMsg = true ∨ stT.replied = false then
        stT.trace ++ [⟨if isMsg then Prim.msgReply else Prim.intReply,
          Payload.text ("Error sending reply: " ++ m), (env stT.idx).isNone⟩]
      else stT.trace := by
  unfold runSafeReply safeReply tryCatchR
  rw [herr]
  unfold catchHandler tryCatchR
  cases isMsg
  · cases dm <;> rcases hrep : stT.replied <;> rcases henv : env stT.idx with _ | m' <;>
      simp [bindR, pureR, getStateR, send, henv, hrep]
  · cases dm <;> rcases henv : env stT.idx with _ | m' <;>
      simp [bindR, pureR, send, henv]

/-- **C2 counterexample.** The claim that the Dispatcher "makes exactly one
fallback send attempt … using the primitive selected by the tri-state
completion flag (edit/update when already deferred or responded)" fails: for
an interaction already responded to (`replied = true`), whose edit of the
content throws `"boom"`, the catch block makes *no* fallback attempt — the
trace holds only the single failed edit and no call carries the fallback
text. -/
theorem safeReply_fallback_cex :
    (tryBlock (envAllThrow "boom") false true (Content.str "hi") false
        (initState false true)).2 = Except.error "boom" ∧
      (runSafeReply (envAllThrow "boom") false true (Content.str "hi") false false
          true).1.trace =
        [⟨Prim.intEdit, Payload.text "hi", false⟩] :=
  ⟨rfl, rfl⟩

/-- Witness for the amended C2: a message target whose reply throws gets
exactly one fallback attempt with the error text. -/
theorem safeReply_fallback_amended_witness :
    tryBlock (envAllThrow "boom") true true (Content.str "hi") false (initState false false) =
      ((⟨1, false, false, [⟨Prim.msgReply, Payload.text "hi", false⟩]⟩ : ExecState),
        Except.error "boom") ∧
      (runSafeReply (envAllThrow "boom") true true (Content.str "hi") false false
          false).1.trace =
        if (true : Bool) = true ∨
            (⟨1, false, false, [⟨Prim.msgReply, Payload.text "hi", false⟩]⟩ : ExecState).replied
              = false then
          (⟨1, false, false, [⟨Prim.msgReply, Payload.text "hi", false⟩]⟩ : ExecState).trace ++
            [⟨if (true : Bool) then Prim.msgReply else Prim.intReply,
              Payload.text ("Error sending reply: " ++ "boom"),
              (envAllThrow "boom"
                (⟨1, false, false,
                  [⟨Prim.msgReply, Payload.text "hi", false⟩]⟩ : ExecState).idx).isNone⟩]
        else
          (⟨1, false, false, [⟨Prim.msgReply, Payload.text "hi", false⟩]⟩ : ExecState).trace :=
  ⟨rfl, safeReply_fallback_amended (envAllThrow "boom") true true false false false
    (Content.str "hi") "boom" _ rfl⟩

/-! ## C3: at most one successful initial/edit send per invocation -/

/-- A call that *succeeded* through the initial-reply or edit primitive. -/
def succInit (c : CallRec) : Bool := c.ok && isInitOrEdit c.prim

/-- Ordering guard between two calls of one invocation: once a call has
succeeded through the initial/edit primitive, no later call may even attempt
the initial/edit primitive. -/
def initGuard (a b : CallRec) : Prop :=
  succInit a = true → isInitOrEdit b.prim = false

/-- No successful initial/edit call in the trace yet. -/
def NoSI (st : ExecState) : Prop := ∀ c ∈ st.trace, succInit c = false

/-- The dispatch invariant: the trace satisfies the ordering guard pairwise,
and as long as the interaction is not marked replied, no initial/edit call
has succeeded. -/
def Inv (st : ExecState) : Prop :=
  List.Pairwise initGuard st.trace ∧ (st.replied = false → NoSI st)

theorem send_fst (env : Nat → Option String) (p : Prim) (pl : Payload) (st : ExecState) :
    (send env p pl st).1 = ⟨st.idx + 1, st.deferred,
      st.replied || ((env st.idx).isNone && isInitOrEdit p),
      st.trace ++ [⟨p, pl, (env st.idx).isNone⟩]⟩ := by
  unfold send
  rcases env st.idx with _ | m <;> simp

theorem pairwise_snoc {t : List CallRec} {c : CallRec}
    (h : List.Pairwise initGuard t) (hc : ∀ a ∈ t, initGuard a c) :
    List.Pairwise initGuard (t ++ [c]) := by
  rw [List.pairwise_append]
  refine ⟨h, List.pairwise_singleton _ _, ?_⟩
  intro a ha b hb
  simp only [List.mem_singleton] at hb
  subst hb
  exact hc a ha

/-- A send through a non-initial primitive preserves the invariant
unconditionally. -/
theorem send_inv_noninit {env : Nat → Option String} {p : Prim} {pl : Payload}
    {st : ExecState} (hp : isInitOrEdit p = false) (h : Inv st) :
    Inv (send env p pl st).1 := by
  rw [send_fst]
  constructor
  · exact pairwise_snoc h.1 (fun a _ _ => hp)
  · intro hrep
    simp only [hp, Bool.and_false, Bool.or_false] at hrep
    intro c hc
    simp only [List.mem_append, List.mem_singleton] at hc
    rcases hc with hc | hc
    · exact h.2 hrep c hc
    · subst hc
      simp [succInit, hp]

/-- Any send — in particular an initial/edit attempt — preserves the
invariant when no initial/edit call has succeeded yet. -/
theorem send_inv_any {env : Nat → Option String} {p : Prim} {pl : Payload}
    {st : ExecState} (h : Inv st) (hn : NoSI st) :
    Inv (send env p pl st).1 := by
  rw [send_fst]
  constructor
  · refine pairwise_snoc h.1 (fun a ha hsa => ?_)
    exact absurd hsa (by simp [hn a ha])
  · intro hrep
    simp only [Bool.or_eq_false_iff, Bool.and_eq_false_iff] at hrep
    intro c hc
    simp only [List.mem_append, List.mem_singleton] at hc
    rcases hc with hc | hc
    · exact hn c hc
    · subst hc
      simp only [succInit]
      rcases hrep.2 with h' | h' <;> simp [h']

/-- A non-initial send cannot make an initial/edit call succeed. -/
theorem send_nosi_noninit {env : Nat → Option String} {p : Prim} {pl : Payload}
    {st : ExecState} (hp : isInitOrEdit p = false) (hn : NoSI st) :
    NoSI (send env p pl st).1 := by
  rw [send_fst]
  intro c hc
  simp only [List.mem_append, List.mem_singleton] at hc
  rcases hc with hc | hc
  · exact hn c hc
  · subst hc
    simp [succInit, hp]

/-- Case analysis principle for the state reached by a `bindR`. -/
theorem bindR_inv {α β : Type} (P : ExecState → Prop) (x : ReplyM α) (f : α → ReplyM β)
    (st : ExecState) (hx : P (x st).1) (hf : ∀ a, P ((f a) (x st).1).1) :
    P ((bindR x f) st).1 := by
  unfold bindR
  rcases hxe : x st with ⟨st', r⟩
  rcases r with m | a
  · rw [hxe] at hx
    exact hx
  · have := hf a
    rw [hxe] at this
    exact this

/-- Case analysis principle for the state reached by a `tryCatchR`. -/
theorem tryCatchR_inv {α : Type} (P : ExecState → Prop) (x : ReplyM α)
    (h : String → ReplyM α) (st : ExecState) (hx : P (x st).1)
    (hh : ∀ m s, P s → P ((h m) s).1) :
    P ((tryCatchR x h) st).1 := by
  unfold tryCatchR
  rcases hxe : x st with ⟨st', r⟩
  rcases r with m | a
  · have : P st' := by rw [hxe] at hx; exact hx
    exact hh m st' this
  · rw [hxe] at hx
    exact hx

theorem sendRest_inv (env : Nat → Option String) (isMsg chText dm : Bool) :
    ∀ (batches : List (List EmbedData)) (st : ExecState), Inv st →
      Inv ((sendRest env isMsg chText dm batches) st).1 := by
  intro batches
  induction batches with
  | nil =>
      intro st h
      exact h
  | cons b rest ih =>
      intro st h
      unfold sendRest
      refine bindR_inv Inv _ _ _ ?_ ?_
      case refine_1 =>
        rcases dm
        · rcases isMsg
          · simp only [Bool.false_eq_true, if_false]
            exact bindR_inv Inv _ _ _ (send_inv_noninit rfl h)
              (fun _ => send_inv_noninit rfl h)
          · simp only [if_true]
            rcases chText
            · simp only [Bool.false_eq_true, if_false]
              exact h
            · simp only [if_true]
              exact bindR_inv Inv _ _ _ (send_inv_noninit rfl h)
                (fun _ => send_inv_noninit rfl h)
        · simp only [if_true]
          exact bindR_inv Inv _ _ _ (send_inv_noninit rfl h)
            (fun _ => send_inv_noninit rfl h)
      case refine_2 =>
        intro a
        apply ih
        rcases dm
        · rcases isMsg
          · simp only [Bool.false_eq_true, if_false]
            exact bindR_inv Inv _ _ _ (send_inv_noninit rfl h)
              (fun _ => send_inv_noninit rfl h)
          · simp only [if_true]
            rcases chText
            · simp only [Bool.false_eq_true, if_false]
              exact h
            · simp only [if_true]
              exact bindR_inv Inv _ _ _ (send_inv_noninit rfl h)
                (fun _ => send_inv_noninit rfl h)
        · simp only [if_true]
          exact bindR_inv Inv _ _ _ (send_inv_noninit rfl h)
            (fun _ => send_inv_noninit rfl h)

/-- Variant of `bindR_inv` whose continuation hypothesis is uniform in the
intermediate state. -/
theorem bindR_inv2 {α β : Type} (P : ExecState → Prop) (x : ReplyM α) (f : α → ReplyM β)
    (st : ExecState) (hx : P ((x st).1)) (hf : ∀ a s, P s → P ((f a) s).1) :
    P ((bindR x f) st).1 :=
  bindR_inv P x f st hx (fun a => hf a _ hx)

/-- `bindR getStateR f` runs `f` on the current state itself. -/
theorem bindR_getState_inv {β : Type} (P : ExecState → Prop) (f : ExecState → ReplyM β)
    (st : ExecState) (hf : P ((f st) st).1) : P ((bindR getStateR f) st).1 := hf

theorem sendContentPlain_inv (env : Nat → Option String) (isMsg : Bool) (pl : Payload)
    (dm : Bool) (st : ExecState) (h : Inv st) (hn : NoSI st) :
    Inv ((sendContentPlain env isMsg pl dm) st).1 := by
  unfold sendContentPlain
  rcases dm
  · simp only [Bool.false_eq_true, if_false]
    rcases isMsg
    · simp only [Bool.false_eq_true, if_false]
      refine bindR_getState_inv Inv _ _ ?_
      by_cases hc : (st.deferred || st.replied) = true
      · rw [if_pos hc]
        exact bindR_inv Inv _ _ _ (send_inv_any h hn) (fun _ => send_inv_any h hn)
      · rw [if_neg hc]
        exact bindR_inv Inv _ _ _ (send_inv_any h hn) (fun _ => send_inv_any h hn)
    · simp only [if_true]
      exact bindR_inv Inv _ _ _ (send_inv_noninit rfl h) (fun _ => send_inv_noninit rfl h)
  · simp only [if_true]
    rcases isMsg
    · simp only [Bool.false_eq_true, if_false]
      refine bindR_inv Inv _ _ _ (send_inv_noninit rfl h) ?_
      intro a
      refine bindR_getState_inv Inv _ _ ?_
      by_cases hc : (((send env Prim.userSend pl) st).1.deferred ||
          ((send env Prim.userSend pl) st).1.replied) = true
      · rw [if_pos hc]
        exact bindR_inv Inv _ _ _
          (send_inv_any (send_inv_noninit rfl h) (send_nosi_noninit rfl hn))
          (fun _ => send_inv_any (send_inv_noninit rfl h) (send_nosi_noninit rfl hn))
      · rw [if_neg hc]
        exact bindR_inv Inv _ _ _
          (send_inv_any (send_inv_noninit rfl h) (send_nosi_noninit rfl hn))
          (fun _ => send_inv_any (send_inv_noninit rfl h) (send_nosi_noninit rfl hn))
    · simp only [if_true]
      exact bindR_inv Inv _ _ _ (send_inv_noninit rfl h) (fun _ => send_inv_noninit rfl h)

theorem sendBatches_inv (env : Nat → Option String) (isMsg chText tern : Bool)
    (batches : List (List EmbedData)) (dm : Bool) (st : ExecState)
    (h : Inv st) (hn : NoSI st) :
    Inv ((sendBatches env isMsg chText tern batches dm) st).1 := by
  unfold sendBatches
  refine bindR_inv2 Inv _ _ _ ?_ ?_
  · rcases dm
    · simp only [Bool.false_eq_true, if_false]
      rcases isMsg
      · simp only [Bool.false_eq_true, if_false]
        refine bindR_getState_inv Inv _ _ ?_
        by_cases hc : (st.deferred || st.replied) = true
        · rw [if_pos hc]
          exact bindR_inv Inv _ _ _ (send_inv_any h hn) (fun _ => send_inv_any h hn)
        · rw [if_neg hc]
          exact bindR_inv Inv _ _ _ (send_inv_any h hn) (fun _ => send_inv_any h hn)
      · simp only [if_true]
        exact bindR_inv Inv _ _ _ (send_inv_noninit rfl h) (fun _ => send_inv_noninit rfl h)
    · simp only [if_true]
      refine bindR_inv Inv _ _ _ (send_inv_noninit rfl h) ?_
      intro a
      rcases isMsg
      · simp only [Bool.false_eq_true, if_false]
        refine bindR_getState_inv Inv _ _ ?_
        by_cases hc : ((send env Prim.userSend
            (Payload.embeds (if tern then firstBatchPayload (batches.headD [])
              else batches.headD [])) st).1.deferred ||
            (send env Prim.userSend
            (Payload.embeds (if tern then firstBatchPayload (batches.headD [])
              else batches.headD [])) st).1.replied) = true
        · rw [if_pos hc]
          exact bindR_inv Inv _ _ _
            (send_inv_any (send_inv_noninit rfl h) (send_nosi_noninit rfl hn))
            (fun _ => send_inv_any (send_inv_noninit rfl h) (send_nosi_noninit rfl hn))
        · rw [if_neg hc]
          exact bindR_inv Inv _ _ _
            (send_inv_any (send_inv_noninit rfl h) (send_nosi_noninit rfl hn))
            (fun _ => send_inv_any (send_inv_noninit rfl h) (send_nosi_noninit rfl hn))
      · simp only [if_true]
        exact send_inv_noninit rfl h
  · intro first s hs
    exact bindR_inv Inv _ _ _ (sendRest_inv env isMsg chText dm _ s hs)
      (fun _ => sendRest_inv env isMsg chText dm _ s hs)

theorem tryBlock_inv (env : Nat → Option String) (isMsg chText : Bool) (content : Content)
    (dm : Bool) (st : ExecState) (h : Inv st) (hn : NoSI st) :
    Inv ((tryBlock env isMsg chText content dm) st).1 := by
  unfold tryBlock
  rcases content with s | embeds
  · exact sendContentPlain_inv env isMsg _ dm st h hn
  · dsimp only
    by_cases h0 : embeds.length = 0
    · rw [if_pos h0]
      exact sendContentPlain_inv env isMsg _ dm st h hn
    · rw [if_neg h0]
      by_cases h1 : descTruthy (embeds.headD ⟨none, none, none, none⟩).description = false
      · rw [if_pos h1]
        by_cases h2 : (groupEmbedsIntoBatches embeds).length = 1
        · rw [if_pos h2]
          exact sendContentPlain_inv env isMsg _ dm st h hn
        · rw [if_neg h2]
          exact sendBatches_inv env isMsg chText false _ dm st h hn
      · rw [if_neg h1]
        by_cases h2 : DISCORD_EMBED_DESCRIPTION_LIMIT <
            ((embeds.headD ⟨none, none, none, none⟩).description.getD []).length
        · rw [if_pos h2]
          exact sendBatches_inv env isMsg chText true _ dm st h hn
        · rw [if_neg h2]
          by_cases h3 : (groupEmbedsIntoBatches embeds).length = 1
          · rw [if_pos h3]
            exact sendContentPlain_inv env isMsg _ dm st h hn
          · rw [if_neg h3]
            exact sendBatches_inv env isMsg chText false _ dm st h hn

theorem catchHandler_inv (env : Nat → Option String) (isMsg dm : Bool) (m : String)
    (st : ExecState) (h : Inv st) : Inv ((catchHandler env isMsg dm m) st).1 := by
  unfold catchHandler
  refine tryCatchR_inv Inv _ _ _ ?_ (fun m' s hs => hs)
  rcases dm
  · simp only [Bool.false_eq_true, if_false]
    rcases isMsg
    · simp only [Bool.false_eq_true, if_false]
      refine bindR_getState_inv Inv _ _ ?_
      by_cases hc : st.replied = false
      · rw [if_pos hc]
        exact bindR_inv Inv _ _ _ (send_inv_any h (h.2 hc)) (fun _ => send_inv_any h (h.2 hc))
      · rw [if_neg hc]
        exact h
    · simp only [if_true]
      exact bindR_inv Inv _ _ _ (send_inv_noninit rfl h) (fun _ => send_inv_noninit rfl h)
  · simp only [if_true]
    rcases isMsg
    · simp only [Bool.false_eq_true, if_false]
      refine bindR_getState_inv Inv _ _ ?_
      by_cases hc : st.replied = false
      · rw [if_pos hc]
        exact bindR_inv Inv _ _ _ (send_inv_any h (h.2 hc)) (fun _ => send_inv_any h (h.2 hc))
      · rw [if_neg hc]
        exact h
    · simp only [if_true]
      exact bindR_inv Inv _ _ _ (send_inv_noninit rfl h) (fun _ => send_inv_noninit rfl h)

/-- A pairwise-guarded trace holds at most one successful initial/edit
call. -/
theorem pairwise_initGuard_count :
    ∀ {t : List CallRec}, List.Pairwise initGuard t → (t.filter succInit).length ≤ 1 := by
  intro t
  induction t with
  | nil => intro _; simp
  | cons c t ih =>
      intro h
      rcases List.pairwise_cons.mp h with ⟨hc, ht⟩
      by_cases hs : succInit c = true
      · have hnil : t.filter succInit = [] := by
          rw [List.filter_eq_nil_iff]
          intro a ha
          have := hc a ha hs
          simp [succInit, this]
        rw [List.filter_cons_of_pos hs, hnil]
        simp
      · have hs' : succInit c = false := by
          rcases hb : succInit c
          · rfl
          · exact absurd hb hs
        rw [List.filter_cons_of_neg (by simp [hs'])]
        exact ih ht

/-- **C3 amended.** In every single Dispatcher invocation, at most one
platform call *succeeds* through an initial-reply or edit/update primitive,
and once a call has succeeded through such a primitive, no later call of the
same invocation even attempts one — every subsequent delivery uses the
follow-up, channel, or direct-message primitives. (A *failed* initial/edit
attempt may however be followed by one more initial-reply attempt on the
error-recovery path, which is what the original claim's "at most one send"
over-counts.) -/
theorem safeReply_initOrEdit_once (env : Nat → Option String)
    (isMsg chText dm deferred replied : Bool) (content : Content) :
    List.Pairwise initGuard
        (runSafeReply env isMsg chText content dm deferred replied).1.trace ∧
      ((runSafeReply env isMsg chText content dm deferred replied).1.trace.filter
        succInit).length ≤ 1 := by
  have hInv : Inv (runSafeReply env isMsg chText content dm deferred replied).1 := by
    unfold runSafeReply safeReply
    refine tryCatchR_inv Inv _ _ _ ?_ ?_
    · refine tryBlock_inv env isMsg chText content dm (initState deferred replied)
        ⟨List.Pairwise.nil, fun _ => ?_⟩ ?_
      · intro c hc
        simp [initState] at hc
      · intro c hc
        simp [initState] at hc
    · intro m s hs
      exact catchHandler_inv env isMsg dm m s hs
  exact ⟨hInv.1, pairwise_initGuard_count hInv.1⟩

/-- **C3 counterexample.** The claim "at most one send uses an initial-reply
or edit/update primitive (including any sends made on the error-recovery
path)" fails when attempts are counted: for an interaction not yet
responded to whose initial reply throws, the catch block issues a *second*
initial-reply attempt — two sends through the initial primitive in one
invocation. -/
theorem safeReply_initOrEdit_cex :
    (runSafeReply (envAllThrow "b") false true (Content.str "hi") false false
        false).1.trace =
      [⟨Prim.intReply, Payload.text "hi", false⟩,
        ⟨Prim.intReply, Payload.text ("Error sending reply: " ++ "b"), false⟩] ∧
      ((runSafeReply (envAllThrow "b") false true (Content.str "hi") false false
          false).1.trace.filter (fun c => isInitOrEdit c.prim)).length = 2 :=
  ⟨rfl, rfl⟩

/-! ## C10: an oversized first embed discards every later unit -/

theorem splitTextIntoChunks_ne_nil (text : List Char) (chunkSize : Nat) :
    splitTextIntoChunks text chunkSize ≠ [] := by
  unfold splitTextIntoChunks
  by_cases h : text.length ≤ chunkSize
  · rw [if_pos h]
    simp
  · rw [if_neg h]
    rcases hfuel : text.length with _ | fuel
    · exact absurd (by omega) h
    · rw [splitLoop_cons h]
      simp

theorem createMultipleEmbeds_ne_nil (title text color : List Char)
    (footer : Option (List Char)) : createMultipleEmbeds title text color footer ≠ [] := by
  unfold createMultipleEmbeds
  intro h
  rw [List.map_eq_nil_iff, List.range_eq_nil] at h
  exact splitTextIntoChunks_ne_nil text DISCORD_EMBED_DESCRIPTION_LIMIT
    (List.length_eq_zero.mp h)

theorem groupEmbedsIntoBatches_ne_nil {l : List EmbedData} (h : l ≠ []) :
    groupEmbedsIntoBatches l ≠ [] := by
  rcases l with _ | ⟨e, rest⟩
  · exact absurd rfl h
  · rw [groupEmbedsIntoBatches_eq, greedyGroup_cons]
    simp

theorem mem_of_mem_group {l : List EmbedData} {b : List EmbedData} {e : EmbedData}
    (hb : b ∈ groupEmbedsIntoBatches l) (he : e ∈ b) : e ∈ l := by
  rw [groupEmbedsIntoBatches_eq] at hb
  have : e ∈ (greedyGroup l).flatten := List.mem_flatten.mpr ⟨b, hb, he⟩
  rwa [greedyGroup_flatten] at this

theorem firstBatchPayload_eq (b : List EmbedData) : firstBatchPayload b = b := by
  unfold firstBatchPayload
  by_cases h : b.length = 1
  · rw [if_pos h]
    exact List.take_of_length_le (by omega)
  · rw [if_neg h]

theorem headD_mem {l : List (List EmbedData)} (h : l ≠ []) : l.headD [] ∈ l := by
  rcases l with _ | ⟨b, t⟩
  · exact absurd rfl h
  · simp

/-- A call's payload is a plain text or one of the given batches. -/
def PayloadIn (batches : List (List EmbedData)) (c : CallRec) : Prop :=
  (∃ s, c.payload = Payload.text s) ∨ ∃ b ∈ batches, c.payload = Payload.embeds b

theorem send_payloadIn {env : Nat → Option String} {p : Prim} {pl : Payload}
    {batches : List (List EmbedData)} {st : ExecState}
    (h : ∀ c ∈ st.trace, PayloadIn batches c)
    (hnew : ∀ ok : Bool, PayloadIn batches ⟨p, pl, ok⟩) :
    ∀ c ∈ (send env p pl st).1.trace, PayloadIn batches c := by
  rw [send_fst]
  intro c hc
  simp only [List.mem_append, List.mem_singleton] at hc
  rcases hc with hc | hc
  · exact h c hc
  · subst hc
    exact hnew _

theorem sendRest_payloadIn (env : Nat → Option String) (isMsg chText dm : Bool)
    (batches : List (List EmbedData)) :
    ∀ (bs : List (List EmbedData)) (st : ExecState),
      (∀ b ∈ bs, b ∈ batches) →
      (∀ c ∈ st.trace, PayloadIn batches c) →
      ∀ c ∈ ((sendRest env isMsg chText dm bs) st).1.trace, PayloadIn batches c := by
  intro bs
  induction bs with
  | nil =>
      intro st _ h
      exact h
  | cons b rest ih =>
      intro st hbs h
      have hbmem : b ∈ batches := hbs b (List.mem_cons_self _ _)
      have hstep : ∀ (s : ExecState), (∀ c ∈ s.trace, PayloadIn batches c) →
          ∀ c ∈ ((if dm then bindR (send env .userSend (.embeds b)) (fun _ => pureR ())
              else if isMsg then
                (if chText then bindR (send env .channelSend (.embeds b)) (fun _ => pureR ())
                 else pureR ())
              else bindR (send env .intFollowUp (.embeds b)) (fun _ => pureR ())) s).1.trace,
            PayloadIn batches c := by
        intro s hs
        rcases dm
        · rcases isMsg
          · simp only [Bool.false_eq_true, if_false]
            exact bindR_inv2 (fun s' => ∀ c ∈ s'.trace, PayloadIn batches c) _ _ _
              (send_payloadIn hs (fun _ => Or.inr ⟨b, hbmem, rfl⟩)) (fun _ s' hs' => hs')
          · simp only [if_true]
            rcases chText
            · simp only [Bool.false_eq_true, if_false]
              exact hs
            · simp only [if_true]
              exact bindR_inv2 (fun s' => ∀ c ∈ s'.trace, PayloadIn batches c) _ _ _
                (send_payloadIn hs (fun _ => Or.inr ⟨b, hbmem, rfl⟩)) (fun _ s' hs' => hs')
        · simp only [if_true]
          exact bindR_inv2 (fun s' => ∀ c ∈ s'.trace, PayloadIn batches c) _ _ _
            (send_payloadIn hs (fun _ => Or.inr ⟨b, hbmem, rfl⟩)) (fun _ s' hs' => hs')
      unfold sendRest
      refine bindR_inv2 (fun s => ∀ c ∈ s.trace, PayloadIn batches c) _ _ _ (hstep st h) ?_
      intro _ s hs
      exact ih s (fun b' hb' => hbs b' (List.mem_cons_of_mem _ hb')) hs

theorem sendBatches_payloadIn (env : Nat → Option String) (isMsg chText tern dm : Bool)
    (batches : List (List EmbedData)) (hb : batches ≠ []) (st : ExecState)
    (h : ∀ c ∈ st.trace, PayloadIn batches c) :
    ∀ c ∈ ((sendBatches env isMsg chText tern batches dm) st).1.trace,
      PayloadIn batches c := by
  have hfirst : ∀ ok : Bool, PayloadIn batches
      ⟨Prim.userSend,
        Payload.embeds (if tern then firstBatchPayload (batches.headD [])
          else batches.headD []), ok⟩ := by
    intro ok
    right
    refine ⟨batches.headD [], headD_mem hb, ?_⟩
    rw [firstBatchPayload_eq]
    simp
  have hfirst' : ∀ (p : Prim) (ok : Bool), PayloadIn batches
      ⟨p, Payload.embeds (if tern then firstBatchPayload (batches.headD [])
        else batches.headD []), ok⟩ := by
    intro p ok
    right
    refine ⟨batches.headD [], headD_mem hb, ?_⟩
    rw [firstBatchPayload_eq]
    simp
  unfold sendBatches
  refine bindR_inv2 (fun s => ∀ c ∈ s.trace, PayloadIn batches c) _ _ _ ?_ ?_
  · rcases dm
    · simp only [Bool.false_eq_true, if_false]
      rcases isMsg
      · simp only [Bool.false_eq_true, if_false]
        refine bindR_getState_inv (fun s => ∀ c ∈ s.trace, PayloadIn batches c) _ _ ?_
        by_cases hc : (st.deferred || st.replied) = true
        · rw [if_pos hc]
          exact bindR_inv2 (fun s => ∀ c ∈ s.trace, PayloadIn batches c) _ _ _
            (send_payloadIn h (hfirst' _)) (fun _ s hs => hs)
        · rw [if_neg hc]
          exact bindR_inv2 (fun s => ∀ c ∈ s.trace, PayloadIn batches c) _ _ _
            (send_payloadIn h (hfirst' _)) (fun _ s hs => hs)
      · simp only [if_true]
        exact bindR_inv2 (fun s => ∀ c ∈ s.trace, PayloadIn batches c) _ _ _
          (send_payloadIn h (hfirst' _)) (fun _ s hs => hs)
    · simp only [if_true]
      refine bindR_inv2 (fun s => ∀ c ∈ s.trace, PayloadIn batches c) _ _ _
        (send_payloadIn h hfirst) ?_
      intro a s hs
      rcases isMsg
      · simp only [Bool.false_eq_true, if_false]
        refine bindR_getState_inv (fun s' => ∀ c ∈ s'.trace, PayloadIn batches c) _ _ ?_
        by_cases hc : (s.deferred || s.replied) = true
        · rw [if_pos hc]
          exact bindR_inv2 (fun s' => ∀ c ∈ s'.trace, PayloadIn batches c) _ _ _
            (send_payloadIn hs (fun _ => Or.inl ⟨_, rfl⟩)) (fun _ s' hs' => hs')
        · rw [if_neg hc]
          exact bindR_inv2 (fun s' => ∀ c ∈ s'.trace, PayloadIn batches c) _ _ _
            (send_payloadIn hs (fun _ => Or.inl ⟨_, rfl⟩)) (fun _ s' hs' => hs')
      · simp only [if_true]
        exact hs
  · intro first s hs
    refine bindR_inv2 (fun s' => ∀ c ∈ s'.trace, PayloadIn batches c) _ _ _ ?_
      (fun _ s' hs' => hs')
    exact sendRest_payloadIn env isMsg chText dm batches _ s
      (fun b' hb' => List.drop_subset _ _ hb') hs

theorem catchHandler_payloadIn (env : Nat → Option String) (isMsg dm : Bool) (m : String)
    (batches : List (List EmbedData)) (st : ExecState)
    (h : ∀ c ∈ st.trace, PayloadIn batches c) :
    ∀ c ∈ ((catchHandler env isMsg dm m) st).1.trace, PayloadIn batches c := by
  unfold catchHandler
  refine tryCatchR_inv (fun s => ∀ c ∈ s.trace, PayloadIn batches c) _ _ _ ?_
    (fun m' s hs => hs)
  rcases dm
  · simp only [Bool.false_eq_true, if_false]
    rcases isMsg
    · simp only [Bool.false_eq_true, if_false]
      refine bindR_getState_inv (fun s => ∀ c ∈ s.trace, PayloadIn batches c) _ _ ?_
      by_cases hc : st.replied = false
      · rw [if_pos hc]
        exact bindR_inv2 (fun s => ∀ c ∈ s.trace, PayloadIn batches c) _ _ _
          (send_payloadIn h (fun _ => Or.inl ⟨_, rfl⟩)) (fun _ s hs => hs)
      · rw [if_neg hc]
        exact h
    · simp only [if_true]
      exact bindR_inv2 (fun s => ∀ c ∈ s.trace, PayloadIn batches c) _ _ _
        (send_payloadIn h (fun _ => Or.inl ⟨_, rfl⟩)) (fun _ s hs => hs)
  · simp only [if_true]
    rcases isMsg
    · simp only [Bool.false_eq_true, if_false]
      refine bindR_getState_inv (fun s => ∀ c ∈ s.trace, PayloadIn batches c) _ _ ?_
      by_cases hc : st.replied = false
      · rw [if_pos hc]
        exact bindR_inv2 (fun s => ∀ c ∈ s.trace, PayloadIn batches c) _ _ _
          (send_payloadIn h (fun _ => Or.inl ⟨_, rfl⟩)) (fun _ s hs => hs)
      · rw [if_neg hc]
        exact h
    · simp only [if_true]
      exact bindR_inv2 (fun s => ∀ c ∈ s.trace, PayloadIn batches c) _ _ _
        (send_payloadIn h (fun _ => Or.inl ⟨_, rfl⟩)) (fun _ s hs => hs)

/-- Under an oversized first description, the try block reduces to the
rebuilt-embeds batch delivery. -/
theorem tryBlock_oversized_eq (env : Nat → Option String) (isMsg chText dm : Bool)
    (e0 : EmbedData) (rest : List EmbedData) (d : List Char)
    (hd : e0.description = some d) (hne : d ≠ [])
    (hlen : DISCORD_EMBED_DESCRIPTION_LIMIT < d.length) :
    tryBlock env isMsg chText (Content.embeds (e0 :: rest)) dm =
      sendBatches env isMsg chText true
        (groupEmbedsIntoBatches
          (createMultipleEmbeds (jsOr e0.title []) d (jsOr e0.color defaultEmbedColor)
            e0.footer)) dm := by
  unfold tryBlock
  dsimp only
  rw [if_neg (by simp), if_neg (by simp [descTruthy, hd, hne]), if_pos (by simp [hd]; exact hlen)]
  simp [hd]

/-- **C10.** When the Dispatcher is called with two or more DisplayUnits and
the first unit's body exceeds the single-unit size limit, every unit after
the first is silently discarded: every platform call of the invocation
carries either a plain text or a batch built exclusively from the embeds
rebuilt out of the first unit's title, body, color and footer — the second
and later input units are never sent in any batch. -/
theorem safeReply_oversized_discards_rest (env : Nat → Option String)
    (isMsg chText dm deferred replied : Bool) (e0 : EmbedData) (rest : List EmbedData)
    (d : List Char) (hd : e0.description = some d) (hne : d ≠ [])
    (hlen : DISCORD_EMBED_DESCRIPTION_LIMIT < d.length) :
    ∀ c ∈ (runSafeReply env isMsg chText (Content.embeds (e0 :: rest)) dm deferred
        replied).1.trace,
      (∃ s, c.payload = Payload.text s) ∨
        ∃ b, c.payload = Payload.embeds b ∧
          ∀ e ∈ b, e ∈ createMultipleEmbeds (jsOr e0.title []) d
            (jsOr e0.color defaultEmbedColor) e0.footer := by
  unfold runSafeReply safeReply
  rw [tryBlock_oversized_eq env isMsg chText dm e0 rest d hd hne hlen]
  have hQ : ∀ c ∈ ((tryCatchR
      (sendBatches env isMsg chText true
        (groupEmbedsIntoBatches
          (createMultipleEmbeds (jsOr e0.title []) d (jsOr e0.color defaultEmbedColor)
            e0.footer)) dm)
      (catchHandler env isMsg dm)) (initState deferred replied)).1.trace,
      PayloadIn (groupEmbedsIntoBatches
        (createMultipleEmbeds (jsOr e0.title []) d (jsOr e0.color defaultEmbedColor)
          e0.footer)) c := by
    refine tryCatchR_inv (fun s => ∀ c ∈ s.trace, PayloadIn _ c) _ _ _ ?_ ?_
    · refine sendBatches_payloadIn env isMsg chText true dm _
        (groupEmbedsIntoBatches_ne_nil (createMultipleEmbeds_ne_nil _ _ _ _)) _ ?_
      intro c hc
      simp [initState] at hc
    · intro m s hs
      exact catchHandler_payloadIn env isMsg dm m _ s hs
  intro c hc
  rcases hQ c hc with ⟨s, hs⟩ | ⟨b, hbmem, hpl⟩
  · exact Or.inl ⟨s, hs⟩
  · exact Or.inr ⟨b, hpl, fun e he => mem_of_mem_group hbmem he⟩

/-- Witness for C10: a first embed with a 4001-character body followed by a
second embed; every delivered batch consists of rebuilt embeds only. -/
theorem safeReply_oversized_discards_rest_witness :
    (⟨some ['T'], some (List.replicate 4001 'a'), none, none⟩ : EmbedData).description =
        some (List.replicate 4001 'a') ∧
      List.replicate 4001 'a' ≠ [] ∧
      DISCORD_EMBED_DESCRIPTION_LIMIT < (List.replicate 4001 'a').length ∧
      ∀ c ∈ (runSafeReply envAllOk false true
          (Content.embeds
            (⟨some ['T'], some (List.replicate 4001 'a'), none, none⟩ ::
              sampleEmbedB :: [])) false true false).1.trace,
        (∃ s, c.payload = Payload.text s) ∨
          ∃ b, c.payload = Payload.embeds b ∧
            ∀ e ∈ b, e ∈ createMultipleEmbeds
              (jsOr (⟨some ['T'], some (List.replicate 4001 'a'), none, none⟩ :
                EmbedData).title [])
              (List.replicate 4001 'a')
              (jsOr (⟨some ['T'], some (List.replicate 4001 'a'), none, none⟩ :
                EmbedData).color defaultEmbedColor)
              (⟨some ['T'], some (List.replicate 4001 'a'), none, none⟩ :
                EmbedData).footer :=
  ⟨rfl,
    fun h => by have := congrArg List.length h; rw [List.length_replicate] at this; simp at this,
    by rw [List.length_replicate]; norm_num [DISCORD_EMBED_DESCRIPTION_LIMIT],
    safeReply_oversized_discards_rest envAllOk false true false true false
      ⟨some ['T'], some (List.replicate 4001 'a'), none, none⟩ (sampleEmbedB :: [])
      (List.replicate 4001 'a') rfl
      (fun h => by
        have := congrArg List.length h; rw [List.length_replicate] at this; simp at this)
      (by rw [List.length_replicate]; norm_num [DISCORD_EMBED_DESCRIPTION_LIMIT])⟩

end DiscordSummarize
